import Mathlib

/-!
# Verification of the OmnibookLM RAG retrieval subsystem

Shallow embedding of the repository's core retrieval code:

* `src/services/vectorStore.ts` — the in-memory vector index with IndexedDB
  persistence (`VectorStore` class);
* `src/services/embeddingService.ts` — `chunkText`, `generateEmbedding`,
  `generateEmbeddings`, `processDocumentToChunks`, `cosineSimilarity`;
* `src/services/openRouterService.ts` — `generateChatResponse` (the RAG
  orchestrator).

Modelling conventions:

* JavaScript `Map` objects are embedded as association lists in insertion
  order (`mapSet` updates an existing key in place and appends a fresh key,
  exactly like `Map.prototype.set`); JS `Set` objects are embedded as
  duplicate-free lists in insertion order (`setAdd`).
* JavaScript numbers in the vector path are embedded as exact rationals
  (every JS float is a rational); the cosine-similarity *result* lives in `ℝ`
  because it divides by real square roots.  The claims under verification are
  stated about exact arithmetic.
* `async` methods that swallow persistence errors internally are embedded as
  total functions; a method that can propagate an exception to its caller
  returns an `Except String` value.  The IndexedDB table is embedded as a
  `DB` record with an availability flag: `failing = true` means every
  read/write of the table throws.
* Strings processed by the chunker are embedded through their character
  lists (`String.data`), and the chunker is defined over `List Char`.
-/

/-! ## Association lists with JavaScript `Map` semantics -/

/-- `Map.prototype.get`: first (and, for the maps built here, only) binding. -/
def mapGet {α : Type} (m : List (String × α)) (k : String) : Option α :=
  match m with
  | [] => none
  | (k', v) :: rest => if k' = k then some v else mapGet rest k

/-- `Map.prototype.set`: update an existing key in place (keeping its
position) or append a new binding at the end — JS `Map` insertion order. -/
def mapSet {α : Type} (m : List (String × α)) (k : String) (v : α) :
    List (String × α) :=
  match m with
  | [] => [(k, v)]
  | (k', v') :: rest =>
      if k' = k then (k, v) :: rest else (k', v') :: mapSet rest k v

/-- `Map.prototype.delete`: remove the binding for `k` (if any). -/
def mapDelete {α : Type} (m : List (String × α)) (k : String) :
    List (String × α) :=
  match m with
  | [] => []
  | (k', v') :: rest =>
      if k' = k then rest else (k', v') :: mapDelete rest k

/-- Iteration order of `Map.prototype.values()`. -/
def mapValues {α : Type} (m : List (String × α)) : List α := m.map (·.2)

/-- The key list, in iteration order. -/
def mapKeys {α : Type} (m : List (String × α)) : List String := m.map (·.1)

/-- `Set.prototype.add`: append if not already present. -/
def setAdd (s : List String) (x : String) : List String :=
  if x ∈ s then s else s ++ [x]

theorem mapGet_mapSet {α : Type} (m : List (String × α)) (k k' : String)
    (v : α) :
    mapGet (mapSet m k v) k' = if k = k' then some v else mapGet m k' := by
  induction m with
  | nil =>
    by_cases h : k = k' <;> simp [mapSet, mapGet, h]
  | cons p rest ih =>
    obtain ⟨k₀, v₀⟩ := p
    by_cases h₀ : k₀ = k
    · subst h₀
      by_cases h : k₀ = k' <;> simp [mapSet, mapGet, h]
    · by_cases h : k₀ = k'
      · subst h
        have hk : ¬k = k₀ := fun hh => h₀ hh.symm
        simp [mapSet, mapGet, h₀, hk]
      · simp [mapSet, mapGet, h₀, h, ih]

theorem mapKeys_mapSet_of_mem {α : Type} (m : List (String × α)) (k : String)
    (v : α) (h : k ∈ mapKeys m) : mapKeys (mapSet m k v) = mapKeys m := by
  induction m with
  | nil => simp [mapKeys] at h
  | cons p rest ih =>
    obtain ⟨k₀, v₀⟩ := p
    by_cases h₀ : k₀ = k
    · simp [mapSet, h₀, mapKeys]
    · simp only [mapKeys, List.map_cons] at h
      rcases List.mem_cons.1 h with h | h
      · exact absurd h.symm h₀
      · have := ih h
        simp only [mapKeys] at this
        simp [mapSet, h₀, mapKeys, this]

theorem mapGet_isSome_iff_mem_keys {α : Type} (m : List (String × α))
    (k : String) : (mapGet m k).isSome ↔ k ∈ mapKeys m := by
  induction m with
  | nil => simp [mapGet, mapKeys]
  | cons p rest ih =>
    obtain ⟨k₀, v₀⟩ := p
    simp only [mapKeys, List.map_cons, List.mem_cons]
    by_cases h : k₀ = k
    · subst h; simp [mapGet]
    · have hne : ¬k = k₀ := fun hh => h hh.symm
      simp only [mapGet, if_neg h]
      rw [ih]
      simp [mapKeys, hne]

theorem mapKeys_mapDelete_sublist {α : Type} (m : List (String × α))
    (k : String) : (mapKeys (mapDelete m k)).Sublist (mapKeys m) := by
  induction m with
  | nil => simp [mapDelete]
  | cons p rest ih =>
    obtain ⟨k₀, v₀⟩ := p
    by_cases h : k₀ = k
    · simpa [mapDelete, h, mapKeys] using List.sublist_cons_self k₀ _
    · simpa [mapDelete, h, mapKeys] using ih

/-- With duplicate-free keys (always true for maps built by `mapSet`),
`mapDelete` is plain filtering. -/
theorem mapDelete_eq_filter {α : Type} (m : List (String × α)) (k : String)
    (h : (mapKeys m).Nodup) :
    mapDelete m k = m.filter (fun p => decide (p.1 ≠ k)) := by
  induction m with
  | nil => simp [mapDelete]
  | cons p rest ih =>
    obtain ⟨k₀, v₀⟩ := p
    simp only [mapKeys, List.map_cons, List.nodup_cons] at h
    by_cases hk : k₀ = k
    · subst hk
      have hfilter : rest.filter (fun p => decide (p.1 ≠ k₀)) = rest := by
        apply List.filter_eq_self.2
        intro p hp
        simp only [decide_eq_true_eq]
        intro hpk
        exact h.1 (hpk ▸ (List.mem_map_of_mem (·.1) hp))
      calc mapDelete ((k₀, v₀) :: rest) k₀ = rest := by simp [mapDelete]
        _ = ((k₀, v₀) :: rest).filter (fun p => decide (p.1 ≠ k₀)) := by
            rw [List.filter_cons]
            have hc : (decide ((k₀, v₀).1 ≠ k₀)) = false := by simp
            rw [hc]
            simp only [Bool.false_eq_true, if_false]
            exact hfilter.symm
    · simp [mapDelete, hk, ih h.2]

theorem nodupKeys_mapSet {α : Type} (m : List (String × α)) (k : String)
    (v : α) (h : (mapKeys m).Nodup) : (mapKeys (mapSet m k v)).Nodup := by
  induction m with
  | nil => simp [mapSet, mapKeys]
  | cons p rest ih =>
    obtain ⟨k₀, v₀⟩ := p
    simp only [mapKeys, List.map_cons, List.nodup_cons] at h
    by_cases hk : k₀ = k
    · subst hk
      simpa [mapSet, mapKeys, List.nodup_cons] using h
    · have hcons : mapKeys (mapSet ((k₀, v₀) :: rest) k v) =
          k₀ :: mapKeys (mapSet rest k v) := by
        simp [mapSet, hk, mapKeys]
      rw [hcons]
      refine List.nodup_cons.2 ⟨?_, ?_⟩
      · intro hmem
        have hkeys : mapKeys (mapSet rest k v) = mapKeys rest ∨
            mapKeys (mapSet rest k v) = mapKeys rest ++ [k] := by
          clear hmem ih h hcons
          induction rest with
          | nil => right; simp [mapSet, mapKeys]
          | cons q tail ihq =>
            obtain ⟨k₁, v₁⟩ := q
            by_cases hq : k₁ = k
            · left; simp [mapSet, hq, mapKeys]
            · rcases ihq with hh | hh
              · left; simp [mapSet, hq, mapKeys] at hh ⊢; exact hh
              · right; simp [mapSet, hq, mapKeys] at hh ⊢; exact hh
        simp only [mapKeys] at hmem hkeys
        rcases hkeys with hh | hh
        · rw [hh] at hmem; exact h.1 hmem
        · rw [hh] at hmem
          rcases List.mem_append.1 hmem with hmem | hmem
          · exact h.1 hmem
          · simp at hmem; exact hk hmem
      · exact ih h.2

theorem nodupKeys_mapDelete {α : Type} (m : List (String × α)) (k : String)
    (h : (mapKeys m).Nodup) : (mapKeys (mapDelete m k)).Nodup :=
  (mapKeys_mapDelete_sublist m k).nodup h

theorem mapGet_mapDelete {α : Type} (m : List (String × α)) (k k' : String)
    (h : (mapKeys m).Nodup) :
    mapGet (mapDelete m k) k' = if k = k' then none else mapGet m k' := by
  induction m with
  | nil => simp [mapDelete, mapGet]
  | cons p rest ih =>
    obtain ⟨k₀, v₀⟩ := p
    simp only [mapKeys, List.map_cons, List.nodup_cons] at h
    by_cases hk : k₀ = k
    · subst hk
      by_cases hk' : k₀ = k'
      · subst hk'
        have : mapGet rest k₀ = none := by
          cases hg : mapGet rest k₀ with
          | none => rfl
          | some v =>
            exfalso
            apply h.1
            have := (mapGet_isSome_iff_mem_keys rest k₀).1 (by simp [hg])
            simpa [mapKeys] using this
        simp [mapDelete, mapGet, this]
      · simp [mapDelete, mapGet, hk']
    · by_cases hk' : k₀ = k'
      · subst hk'
        have hne : ¬k = k₀ := fun hh => hk hh.symm
        simp [mapDelete, mapGet, hk, hne]
      · simp [mapDelete, mapGet, hk, hk', ih h.2]

/-- `mapSet` with the value already present is the identity. -/
theorem mapSet_eq_self {α : Type} (m : List (String × α)) (k : String) (v : α)
    (h : mapGet m k = some v) : mapSet m k v = m := by
  induction m with
  | nil => simp [mapGet] at h
  | cons p rest ih =>
    obtain ⟨k₀, v₀⟩ := p
    by_cases hk : k₀ = k
    · subst hk
      simp only [mapGet, if_true, eq_self_iff_true] at h
      have hv : v₀ = v := by
        by_contra hne
        simp [Option.some.injEq] at h
        exact hne h
      simp [mapSet, hv]
    · simp only [mapGet, if_neg hk] at h
      simp [mapSet, hk, ih h]

/-- Association-list extensionality: equal key sequences and equal lookups
imply equal maps (keys duplicate-free). -/
theorem map_ext {α : Type} (m₁ m₂ : List (String × α))
    (hk : mapKeys m₁ = mapKeys m₂) (hn : (mapKeys m₁).Nodup)
    (hg : ∀ k, mapGet m₁ k = mapGet m₂ k) : m₁ = m₂ := by
  induction m₁ generalizing m₂ with
  | nil =>
    cases m₂ with
    | nil => rfl
    | cons q rest => simp [mapKeys] at hk
  | cons p rest ih =>
    obtain ⟨k₀, v₀⟩ := p
    cases m₂ with
    | nil => simp [mapKeys] at hk
    | cons q rest₂ =>
      obtain ⟨k₁, v₁⟩ := q
      simp only [mapKeys, List.map_cons, List.cons.injEq] at hk
      obtain ⟨hk01, hkrest⟩ := hk
      subst hk01
      have hv : v₀ = v₁ := by
        have := hg k₀
        simpa [mapGet] using this
      subst hv
      simp only [mapKeys, List.map_cons, List.nodup_cons] at hn
      refine congrArg _ (ih rest₂ hkrest hn.2 fun k => ?_)
      by_cases hkk : k = k₀
      · subst hkk
        have h₁ : mapGet rest k = none := by
          cases hgr : mapGet rest k with
          | none => rfl
          | some v =>
            exact absurd ((mapGet_isSome_iff_mem_keys rest k).1 (by simp [hgr]))
              hn.1
        have h₂ : mapGet rest₂ k = none := by
          cases hgr : mapGet rest₂ k with
          | none => rfl
          | some v =>
            have := (mapGet_isSome_iff_mem_keys rest₂ k).1 (by simp [hgr])
            simp only [mapKeys] at this
            rw [← hkrest] at this
            exact absurd this hn.1
        rw [h₁, h₂]
      · have := hg k
        have hne : ¬k₀ = k := fun hh => hkk hh.symm
        simpa [mapGet, hne] using this

theorem mem_setAdd (s : List String) (x y : String) :
    y ∈ setAdd s x ↔ y ∈ s ∨ y = x := by
  unfold setAdd
  by_cases h : x ∈ s
  · simp only [if_pos h]
    constructor
    · exact fun hy => Or.inl hy
    · rintro (hy | rfl) <;> [exact hy; exact h]
  · simp [if_neg h]

theorem setAdd_eq_self_of_mem (s : List String) (x : String) (h : x ∈ s) :
    setAdd s x = s := by simp [setAdd, h]

theorem nodup_setAdd (s : List String) (x : String) (h : s.Nodup) :
    (setAdd s x).Nodup := by
  unfold setAdd
  by_cases hx : x ∈ s
  · simpa [hx]
  · simpa [hx] using List.Nodup.append h (by simp) (by simpa using hx)

/-! ## Data model (`src/services/embeddingService.ts`, `vectorStore.ts`) -/

/-- `DocumentChunk.metadata` (optional `pageNumber`, `chunkIndex`,
`totalChunks`). -/
structure ChunkMetadata where
  pageNumber : Option Nat := none
  chunkIndex : Nat
  totalChunks : Nat
deriving DecidableEq, Repr

/-- The `DocumentChunk` interface.  Embedding vectors are exact rationals
(every JavaScript number is a rational); `embedding` is optional exactly as
in the source. -/
structure DocumentChunk where
  id : String
  sourceId : String
  sourceName : String
  content : String
  embedding : Option (List ℚ) := none
  metadata : Option ChunkMetadata := none
deriving DecidableEq, Repr

/-- The in-memory part of the `VectorStore` class: `chunks` (chunk id →
chunk), `sourceChunks` (source id → set of chunk ids), `initialized`. -/
structure VectorMem where
  chunks : List (String × DocumentChunk)
  sourceChunks : List (String × List String)
  initialized : Bool
deriving DecidableEq

/-- The IndexedDB `vectorChunks` table.  `tableExists = false` models
`!db.vectorChunks`; `failing = true` models a table whose reads and writes
all reject (the `catch` paths of the persistence helpers). -/
structure DB where
  tableExists : Bool
  failing : Bool
  rows : List (String × DocumentChunk)
deriving DecidableEq

/-- The vector store together with its persistence collaborator. -/
structure Sys where
  mem : VectorMem
  db : DB
deriving DecidableEq

/-- The body of the `for (const chunk of chunks)` loop in
`VectorStore.addChunks` (also reused by `loadFromDB`): upsert into `chunks`
and add the id to the source's id-set.  The JS two-step
(`if (!has(sourceId)) set(sourceId, new Set()); get(sourceId)!.add(id)`)
is a single upsert of the extended set, with identical `Map` ordering. -/
def insertChunk (m : VectorMem) (c : DocumentChunk) : VectorMem where
  chunks := mapSet m.chunks c.id c
  sourceChunks :=
    mapSet m.sourceChunks c.sourceId
      (setAdd ((mapGet m.sourceChunks c.sourceId).getD []) c.id)
  initialized := m.initialized

/-- The in-memory effect of `addChunks` (the loop over the batch). -/
def addChunksMem (m : VectorMem) (chunks : List DocumentChunk) : VectorMem :=
  chunks.foldl insertChunk m

/-- `VectorStore.saveToDB`: missing table → warn and skip; a failing
`bulkPut` is caught and logged (no change observable); otherwise upsert
every chunk by its primary key `id`. -/
def saveToDB (db : DB) (chunks : List DocumentChunk) : DB :=
  if ¬db.tableExists then db
  else if db.failing then db
  else { db with rows := chunks.foldl (fun r c => mapSet r c.id c) db.rows }

/-- `VectorStore.deleteChunksFromDB`: missing table → skip; a failing
`bulkDelete` is caught and logged; otherwise delete the given ids. -/
def deleteChunksFromDB (db : DB) (chunkIds : List String) : DB :=
  if ¬db.tableExists then db
  else if db.failing then db
  else { db with rows := chunkIds.foldl (fun r i => mapDelete r i) db.rows }

/-- `VectorStore.loadFromDB`: missing table → skip; a failing `toArray` is
caught and logged (memory untouched); otherwise run the `addChunks`-style
insertion loop over all stored rows. -/
def loadFromDB (m : VectorMem) (db : DB) : VectorMem :=
  if ¬db.tableExists then m
  else if db.failing then m
  else (mapValues db.rows).foldl insertChunk m

/-- `VectorStore.initialize`: a no-op when already initialized; otherwise
load from IndexedDB and mark initialized.  The `catch` branch also sets
`initialized = true` ("Continue even if load fails"), and `loadFromDB`
swallows its own errors, so the method is total and always ends
initialized. -/
def initStore (s : Sys) : Sys :=
  if s.mem.initialized then s
  else ⟨{ loadFromDB s.mem s.db with initialized := true }, s.db⟩

/-- `VectorStore.addChunks`: `await initialize()`, insert every chunk into
the in-memory maps, then persist (persistence errors swallowed). -/
def addChunks (s : Sys) (chunks : List DocumentChunk) : Sys :=
  let s1 := initStore s
  ⟨addChunksMem s1.mem chunks, saveToDB s1.db chunks⟩

/-- `VectorStore.removeChunksBySourceId`: `await initialize()`; no-op when
the source owns no chunk-id set; otherwise delete every owned id from
`chunks`, drop the source's entry, and delete from IndexedDB. -/
def removeChunksBySourceId (s : Sys) (sourceId : String) : Sys :=
  let s1 := initStore s
  match mapGet s1.mem.sourceChunks sourceId with
  | none => s1
  | some chunkIds =>
      ⟨⟨chunkIds.foldl (fun m i => mapDelete m i) s1.mem.chunks,
        mapDelete s1.mem.sourceChunks sourceId,
        s1.mem.initialized⟩,
       deleteChunksFromDB s1.db chunkIds⟩

/-- Result record of `VectorStore.getStats`. -/
structure VectorStats where
  totalChunks : Nat
  totalSources : Nat
  averageChunksPerSource : ℚ
deriving DecidableEq, Repr

/-- `VectorStore.getStats`: map sizes and the average rounded to one
decimal (`Math.round(x * 10) / 10`, i.e. `⌊x·10 + 1/2⌋ / 10`). -/
def getStats (m : VectorMem) : VectorStats :=
  let totalChunks := m.chunks.length
  let totalSources := m.sourceChunks.length
  let avg : ℚ := if 0 < totalSources then (totalChunks : ℚ) / totalSources else 0
  ⟨totalChunks, totalSources, ((⌊avg * 10 + 1 / 2⌋ : ℤ) : ℚ) / 10⟩

/-- `VectorStore.clear`: empties both in-memory maps, then awaits
`db.vectorChunks?.clear()`.  The optional chaining makes a *missing* table a
no-op, but — unlike every other persistence call in the class — the `clear()`
call is **not** wrapped in `try/catch`, so a rejected clear propagates to
the caller (after the in-memory maps are already emptied). -/
def clearStore (s : Sys) : Sys × Except String Unit :=
  let mem : VectorMem := ⟨[], [], s.mem.initialized⟩
  if ¬s.db.tableExists then (⟨mem, s.db⟩, .ok ())
  else if s.db.failing then (⟨mem, s.db⟩, .error "vectorChunks.clear rejected")
  else (⟨mem, { s.db with rows := [] }⟩, .ok ())

/-! ## `cosineSimilarity` (`embeddingService.ts`) -/

/-- The accumulation loop of `cosineSimilarity` (for equal-length vectors
the index loop is exactly a `zipWith`-sum). -/
def dotSum (a b : List ℚ) : ℚ := (List.zipWith (· * ·) a b).sum

/-- `cosineSimilarity`: throws `'Vectors must have the same length'` on a
dimension mismatch; otherwise `dot / (√normA · √normB)`, with the result
defined as `0` when the denominator is exactly `0`. -/
noncomputable def cosineSimilarity (vecA vecB : List ℚ) : Except String ℝ :=
  if vecA.length ≠ vecB.length then .error "Vectors must have the same length"
  else
    let dotProduct := dotSum vecA vecB
    let normA := dotSum vecA vecA
    let normB := dotSum vecB vecB
    let denominator : ℝ := Real.sqrt normA * Real.sqrt normB
    if denominator = 0 then .ok 0
    else .ok (dotProduct / denominator)

/-! ## `VectorStore.search` -/

/-- A search hit: chunk plus cosine score. -/
structure SearchResult where
  chunk : DocumentChunk
  score : ℝ

/-- `search`, step (a): candidate set — all chunks in `Map` iteration
order, filtered by the allow-list when it is present and non-empty. -/
def candidateChunks (m : VectorMem) (sourceIds : Option (List String)) :
    List DocumentChunk :=
  let chunksToSearch := mapValues m.chunks
  match sourceIds with
  | some ids =>
      if 0 < ids.length then
        chunksToSearch.filter (fun c => decide (c.sourceId ∈ ids))
      else chunksToSearch
  | none => chunksToSearch

/-- `search`, steps (b)–(d): skip candidates without an embedding, score
the rest, keep scores `≥ minScore`; a similarity error aborts the scan
(`cosineSimilarity` throws propagate out of `search`). -/
noncomputable def scoreCandidates (queryEmbedding : List ℚ) (minScore : ℚ) :
    List DocumentChunk → Except String (List SearchResult)
  | [] => .ok []
  | c :: rest =>
    match c.embedding with
    | none => scoreCandidates queryEmbedding minScore rest
    | some emb =>
      match cosineSimilarity queryEmbedding emb with
      | .error e => .error e
      | .ok score =>
        match scoreCandidates queryEmbedding minScore rest with
        | .error e => .error e
        | .ok tail =>
            .ok (if (minScore : ℝ) ≤ score then ⟨c, score⟩ :: tail else tail)

/-- Stable descending insertion: an element goes before the first earlier…
later element whose score is `≤` its own, so earlier elements stay ahead of
equal-scored later ones — the stable sort of `Array.prototype.sort` with
comparator `(a, b) => b.score - a.score`. -/
noncomputable def insertScored (x : SearchResult) :
    List SearchResult → List SearchResult
  | [] => [x]
  | y :: ys => if y.score ≤ x.score then x :: y :: ys else y :: insertScored x ys

/-- Stable sort by descending score (insertion sort; stable sorts under a
fixed comparator are unique, so this is exactly the JS sort's output). -/
noncomputable def sortByScoreDesc : List SearchResult → List SearchResult
  | [] => []
  | x :: xs => insertScored x (sortByScoreDesc xs)

/-- Option bag of `VectorStore.search`. -/
structure SearchOptions where
  topK : Option Nat := none
  sourceIds : Option (List String) := none
  minScore : Option ℚ := none

/-- `VectorStore.search`: `await initialize()`, build candidates, score and
threshold (defaults `topK = 5`, `minScore = 0.3`), sort descending by score
(stable) and return the first `topK`. -/
noncomputable def search (s : Sys) (queryEmbedding : List ℚ)
    (options : SearchOptions) : Sys × Except String (List SearchResult) :=
  let s1 := initStore s
  let topK := options.topK.getD 5
  let minScore := options.minScore.getD (3 / 10)
  match scoreCandidates queryEmbedding minScore
      (candidateChunks s1.mem options.sourceIds) with
  | .error e => (s1, .error e)
  | .ok results => (s1, .ok ((sortByScoreDesc results).take topK))

/-! ## Facts about `dotSum` and claim C2 -/

theorem dotSum_comm (a b : List ℚ) : dotSum a b = dotSum b a := by
  unfold dotSum
  rw [List.zipWith_comm_of_comm (· * ·) mul_comm]

theorem dotSum_self_nonneg (a : List ℚ) : 0 ≤ dotSum a a := by
  induction a with
  | nil => simp [dotSum]
  | cons x xs ih =>
    have hx : 0 ≤ x * x := mul_self_nonneg x
    calc (0 : ℚ) ≤ x * x + dotSum xs xs := by linarith
      _ = dotSum (x :: xs) (x :: xs) := by simp [dotSum]

theorem dotSum_self_eq_zero_iff (a : List ℚ) :
    dotSum a a = 0 ↔ ∀ x ∈ a, x = 0 := by
  induction a with
  | nil => simp [dotSum]
  | cons x xs ih =>
    constructor
    · intro h
      have hx : 0 ≤ x * x := mul_self_nonneg x
      have hxs : 0 ≤ dotSum xs xs := dotSum_self_nonneg xs
      have hsum : x * x + dotSum xs xs = 0 := by simpa [dotSum] using h
      have hx0 : x * x = 0 := by linarith
      have hxs0 : dotSum xs xs = 0 := by linarith
      intro y hy
      rcases List.mem_cons.1 hy with rfl | hy
      · exact mul_self_eq_zero.1 hx0
      · exact (ih.1 hxs0) y hy
    · intro h
      have hx : x = 0 := h x (by simp)
      have hxs : dotSum xs xs = 0 := ih.2 fun y hy => h y (List.mem_cons_of_mem _ hy)
      have hc : dotSum (x :: xs) (x :: xs) = x * x + dotSum xs xs := by
        simp [dotSum]
      rw [hc, hx, hxs]
      ring

/-- Cauchy–Schwarz for the truncating `zipWith` dot product. -/
theorem dotSum_sq_le (a b : List ℚ) :
    dotSum a b ^ 2 ≤ dotSum a a * dotSum b b := by
  induction a generalizing b with
  | nil => simp [dotSum, mul_nonneg (dotSum_self_nonneg ([] : List ℚ)) (dotSum_self_nonneg b)]
  | cons x xs ih =>
    cases b with
    | nil => simp [dotSum]
    | cons y ys =>
      have hih := ih ys
      have hxs : 0 ≤ dotSum xs xs := dotSum_self_nonneg xs
      have hys : 0 ≤ dotSum ys ys := dotSum_self_nonneg ys
      have hd : dotSum (x :: xs) (y :: ys) = x * y + dotSum xs ys := by
        simp [dotSum]
      have ha : dotSum (x :: xs) (x :: xs) = x * x + dotSum xs xs := by
        simp [dotSum]
      have hb : dotSum (y :: ys) (y :: ys) = y * y + dotSum ys ys := by
        simp [dotSum]
      rw [hd, ha, hb]
      rcases eq_or_lt_of_le hys with hnb0 | hnbpos
      · have hd0 : dotSum xs ys = 0 := by
          nlinarith [sq_nonneg (dotSum xs ys)]
        rw [hd0, ← hnb0]
        nlinarith [mul_nonneg hxs (sq_nonneg y)]
      · have key : 0 ≤ (x * dotSum ys ys - y * dotSum xs ys) ^ 2 +
            (y ^ 2 + dotSum ys ys) *
              (dotSum xs xs * dotSum ys ys - dotSum xs ys ^ 2) :=
          add_nonneg (sq_nonneg _)
            (mul_nonneg (by positivity) (sub_nonneg.2 hih))
        nlinarith [key, hnbpos]

theorem cosineSimilarity_eq (a b : List ℚ) (h : a.length = b.length) :
    cosineSimilarity a b =
      if (Real.sqrt (dotSum a a) * Real.sqrt (dotSum b b) : ℝ) = 0 then .ok 0
      else .ok ((dotSum a b : ℝ) /
        (Real.sqrt (dotSum a a) * Real.sqrt (dotSum b b))) := by
  simp [cosineSimilarity, h]

/-- **C2**: `cosineSimilarity` fails fast on a dimension mismatch; on equal
lengths it is symmetric, returns `0` when either vector has zero norm, and
otherwise returns `dot/(‖a‖·‖b‖)`, a value in `[-1, 1]`; and it returns `1`
on any non-zero vector paired with itself. -/
theorem claim_C2_cosineSimilarity (a b : List ℚ) :
    (a.length ≠ b.length →
        cosineSimilarity a b = .error "Vectors must have the same length") ∧
    (a.length = b.length → cosineSimilarity a b = cosineSimilarity b a) ∧
    (a.length = b.length → ((∀ x ∈ a, x = 0) ∨ (∀ x ∈ b, x = 0)) →
        cosineSimilarity a b = .ok 0) ∧
    (a.length = b.length → ∃ r : ℝ, cosineSimilarity a b = .ok r ∧
        -1 ≤ r ∧ r ≤ 1 ∧
        (dotSum a a ≠ 0 → dotSum b b ≠ 0 →
          r = (dotSum a b : ℝ) /
            (Real.sqrt (dotSum a a) * Real.sqrt (dotSum b b)))) ∧
    ((∃ x ∈ a, x ≠ 0) → cosineSimilarity a a = .ok 1) := by
  have hnaQ : (0 : ℚ) ≤ dotSum a a := dotSum_self_nonneg a
  have hnbQ : (0 : ℚ) ≤ dotSum b b := dotSum_self_nonneg b
  have hna : (0 : ℝ) ≤ (dotSum a a : ℝ) := by exact_mod_cast hnaQ
  have hnb : (0 : ℝ) ≤ (dotSum b b : ℝ) := by exact_mod_cast hnbQ
  refine ⟨?_, ?_, ?_, ?_, ?_⟩
  · intro hne
    simp [cosineSimilarity, hne]
  · intro h
    rw [cosineSimilarity_eq a b h, cosineSimilarity_eq b a h.symm,
      dotSum_comm b a,
      mul_comm (Real.sqrt (dotSum b b)) (Real.sqrt (dotSum a a))]
  · intro h hz
    rw [cosineSimilarity_eq a b h]
    have hden : (Real.sqrt (dotSum a a) * Real.sqrt (dotSum b b) : ℝ) = 0 := by
      rcases hz with hz | hz
      · have : dotSum a a = 0 := (dotSum_self_eq_zero_iff a).2 hz
        rw [this]
        simp
      · have : dotSum b b = 0 := (dotSum_self_eq_zero_iff b).2 hz
        rw [this]
        simp
    rw [if_pos hden]
  · intro h
    rw [cosineSimilarity_eq a b h]
    by_cases hden : (Real.sqrt (dotSum a a) * Real.sqrt (dotSum b b) : ℝ) = 0
    · refine ⟨0, by rw [if_pos hden], by norm_num, by norm_num, ?_⟩
      intro hna0 hnb0
      exfalso
      have hnapos : (0 : ℝ) < (dotSum a a : ℝ) := by
        rcases lt_or_eq_of_le hna with hh | hh
        · exact hh
        · exact absurd (by exact_mod_cast hh.symm) hna0
      have hnbpos : (0 : ℝ) < (dotSum b b : ℝ) := by
        rcases lt_or_eq_of_le hnb with hh | hh
        · exact hh
        · exact absurd (by exact_mod_cast hh.symm) hnb0
      have : (0 : ℝ) < Real.sqrt (dotSum a a) * Real.sqrt (dotSum b b) :=
        mul_pos (Real.sqrt_pos.2 hnapos) (Real.sqrt_pos.2 hnbpos)
      exact absurd hden (ne_of_gt this)
    · have hdenpos : (0 : ℝ) < Real.sqrt (dotSum a a) * Real.sqrt (dotSum b b) :=
        lt_of_le_of_ne (mul_nonneg (Real.sqrt_nonneg _) (Real.sqrt_nonneg _))
          (Ne.symm hden)
      have hcs : ((dotSum a b : ℝ)) ^ 2 ≤ (dotSum a a : ℝ) * (dotSum b b : ℝ) := by
        exact_mod_cast dotSum_sq_le a b
      have habs : |(dotSum a b : ℝ)| ≤
          Real.sqrt (dotSum a a) * Real.sqrt (dotSum b b) := by
        rw [← Real.sqrt_sq_eq_abs, ← Real.sqrt_mul hna]
        exact Real.sqrt_le_sqrt hcs
      have hq : |(dotSum a b : ℝ) /
          (Real.sqrt (dotSum a a) * Real.sqrt (dotSum b b))| ≤ 1 := by
        rw [abs_div, abs_of_pos hdenpos]
        exact (div_le_one hdenpos).2 habs
      have hb := abs_le.1 hq
      exact ⟨_, by rw [if_neg hden], hb.1, hb.2, fun _ _ => rfl⟩
  · intro hne
    have hna0 : dotSum a a ≠ 0 := by
      intro hh
      rcases hne with ⟨x, hx, hxne⟩
      exact hxne (((dotSum_self_eq_zero_iff a).1 hh) x hx)
    have hnapos : (0 : ℝ) < (dotSum a a : ℝ) := by
      rcases lt_or_eq_of_le hna with hh | hh
      · exact hh
      · exact absurd (by exact_mod_cast hh.symm) hna0
    rw [cosineSimilarity_eq a a rfl, Real.mul_self_sqrt hna]
    rw [if_neg (ne_of_gt hnapos)]
    have : ((dotSum a a : ℝ)) / (dotSum a a : ℝ) = 1 :=
      div_self (ne_of_gt hnapos)
    rw [this]

/-- Witness for C2 at concrete inputs. -/
theorem claim_C2_witness :
    cosineSimilarity [(1 : ℚ)] [(2 : ℚ)] = cosineSimilarity [(2 : ℚ)] [(1 : ℚ)] ∧
    cosineSimilarity [(1 : ℚ), 0] [(1 : ℚ), 0] = .ok 1 ∧
    cosineSimilarity [(1 : ℚ)] [(1 : ℚ), 1] = .error "Vectors must have the same length" :=
  ⟨(claim_C2_cosineSimilarity [(1 : ℚ)] [(2 : ℚ)]).2.1 (by decide),
   (claim_C2_cosineSimilarity [(1 : ℚ), 0] [(1 : ℚ), 0]).2.2.2.2
     ⟨1, by decide, by decide⟩,
   (claim_C2_cosineSimilarity [(1 : ℚ)] [(1 : ℚ), 1]).1 (by decide)⟩

/-! ## Facts about `search` and claim C1 -/

theorem insertScored_perm (x : SearchResult) (l : List SearchResult) :
    (insertScored x l).Perm (x :: l) := by
  induction l with
  | nil => simp [insertScored]
  | cons y ys ih =>
    by_cases h : y.score ≤ x.score
    · simp [insertScored, h]
    · have h1 : insertScored x (y :: ys) = y :: insertScored x ys := by
        simp [insertScored, h]
      rw [h1]
      exact List.Perm.trans (List.Perm.cons y ih) (List.Perm.swap x y ys)

theorem sortByScoreDesc_perm (l : List SearchResult) :
    (sortByScoreDesc l).Perm l := by
  induction l with
  | nil => simp [sortByScoreDesc]
  | cons x xs ih =>
    rw [sortByScoreDesc]
    exact List.Perm.trans (insertScored_perm x _) (List.Perm.cons x ih)

theorem insertScored_pairwise (x : SearchResult) (l : List SearchResult)
    (h : l.Pairwise (fun a b => b.score ≤ a.score)) :
    (insertScored x l).Pairwise (fun a b => b.score ≤ a.score) := by
  induction l with
  | nil => simp [insertScored]
  | cons y ys ih =>
    rcases List.pairwise_cons.1 h with ⟨hy, hys⟩
    by_cases hc : y.score ≤ x.score
    · rw [insertScored, if_pos hc]
      refine List.pairwise_cons.2 ⟨?_, h⟩
      intro z hz
      rcases List.mem_cons.1 hz with rfl | hz
      · exact hc
      · exact le_trans (hy z hz) hc
    · rw [insertScored, if_neg hc]
      refine List.pairwise_cons.2 ⟨?_, ih hys⟩
      intro z hz
      have hz' : z ∈ x :: ys := (insertScored_perm x ys).mem_iff.1 hz
      rcases List.mem_cons.1 hz' with rfl | hz'
      · exact le_of_lt (lt_of_not_le hc)
      · exact hy z hz'

theorem sortByScoreDesc_pairwise (l : List SearchResult) :
    (sortByScoreDesc l).Pairwise (fun a b => b.score ≤ a.score) := by
  induction l with
  | nil => simp [sortByScoreDesc]
  | cons x xs ih => exact insertScored_pairwise x _ ih

/-- Stability of the insertion step: the sub-sequence at any fixed score is
untouched (elements skipped over have strictly larger score). -/
theorem insertScored_filter_eq (x : SearchResult) (l : List SearchResult)
    (v : ℝ) :
    (insertScored x l).filter (fun r => decide (r.score = v)) =
      if x.score = v then
        x :: l.filter (fun r => decide (r.score = v))
      else l.filter (fun r => decide (r.score = v)) := by
  induction l with
  | nil =>
    by_cases h : x.score = v <;> simp [insertScored, h]
  | cons y ys ih =>
    by_cases hc : y.score ≤ x.score
    · rw [insertScored, if_pos hc]
      by_cases h : x.score = v <;> simp [List.filter_cons, h]
    · rw [insertScored, if_neg hc]
      have hyv : ∀ hx : x.score = v, ¬(y.score = v) := by
        intro hx hy
        exact hc (le_of_eq (hy.trans hx.symm))
      by_cases h : x.score = v
      · have hy : ¬(y.score = v) := hyv h
        simp [List.filter_cons, hy, ih, h]
      · by_cases hy : y.score = v <;> simp [List.filter_cons, hy, ih, h]

/-- Stability of the sort: at every score value, the hits appear in their
original candidate order. -/
theorem sortByScoreDesc_filter_eq (l : List SearchResult) (v : ℝ) :
    (sortByScoreDesc l).filter (fun r => decide (r.score = v)) =
      l.filter (fun r => decide (r.score = v)) := by
  induction l with
  | nil => simp [sortByScoreDesc]
  | cons x xs ih =>
    rw [sortByScoreDesc, insertScored_filter_eq, ih]
    by_cases h : x.score = v <;> simp [List.filter_cons, h]

/-- What an `.ok` result of the scoring loop says about each hit. -/
theorem scoreCandidates_ok_mem (q : List ℚ) (ms : ℚ)
    (cands : List DocumentChunk) (l : List SearchResult)
    (h : scoreCandidates q ms cands = .ok l) :
    ∀ r ∈ l, r.chunk ∈ cands ∧ r.chunk.embedding.isSome ∧
      (ms : ℝ) ≤ r.score ∧
      ∃ emb, r.chunk.embedding = some emb ∧
        cosineSimilarity q emb = .ok r.score := by
  induction cands generalizing l with
  | nil =>
    simp only [scoreCandidates, Except.ok.injEq] at h
    subst h
    intro r hr
    simp at hr
  | cons c rest ih =>
    intro r hr
    rw [scoreCandidates] at h
    cases hemb : c.embedding with
    | none =>
      simp only [hemb] at h
      rcases ih l h r hr with ⟨h1, h2, h3, h4⟩
      exact ⟨List.mem_cons_of_mem _ h1, h2, h3, h4⟩
    | some emb =>
      simp only [hemb] at h
      cases hcos : cosineSimilarity q emb with
      | error e => simp only [hcos] at h; exact absurd h (by simp)
      | ok score =>
        simp only [hcos] at h
        cases htail : scoreCandidates q ms rest with
        | error e => simp only [htail] at h; exact absurd h (by simp)
        | ok tail =>
          simp only [htail] at h
          by_cases hms : (ms : ℝ) ≤ score
          · rw [if_pos hms] at h
            simp only [Except.ok.injEq] at h
            subst h
            rcases List.mem_cons.1 hr with rfl | hr
            · exact ⟨List.mem_cons_self _ _, by simp [hemb], hms,
                emb, hemb, hcos⟩
            · rcases ih tail htail r hr with ⟨h1, h2, h3, h4⟩
              exact ⟨List.mem_cons_of_mem _ h1, h2, h3, h4⟩
          · rw [if_neg hms] at h
            simp only [Except.ok.injEq] at h
            subst h
            rcases ih tail htail r hr with ⟨h1, h2, h3, h4⟩
            exact ⟨List.mem_cons_of_mem _ h1, h2, h3, h4⟩

theorem candidateChunks_mem_sourceIds (m : VectorMem) (ids : List String)
    (hne : ids ≠ []) (c : DocumentChunk)
    (hc : c ∈ candidateChunks m (some ids)) : c.sourceId ∈ ids := by
  have hlen : 0 < ids.length := List.length_pos.2 hne
  rw [candidateChunks] at hc
  simp only [if_pos hlen] at hc
  rcases List.mem_filter.1 hc with ⟨_, hpred⟩
  exact of_decide_eq_true hpred

/-- **C1**: whenever `search` succeeds, every hit respects a non-empty
source allow-list, scores at least `minScore` (default `0.3`), and carries
an embedding; the output is sorted non-increasingly by score, has at most
`topK` (default `5`) elements, and is the `topK`-prefix of the stable
descending sort of the scored candidates — in particular, at every score
value the surviving hits keep their original `Map`-iteration order, and an
empty scored set yields `.ok []`, not an error. -/
theorem claim_C1_search (s : Sys) (q : List ℚ) (opts : SearchOptions)
    (s' : Sys) (out : List SearchResult)
    (h : search s q opts = (s', .ok out)) :
    (∀ r ∈ out, ∀ ids, opts.sourceIds = some ids → ids ≠ [] →
        r.chunk.sourceId ∈ ids) ∧
    (∀ r ∈ out, ((opts.minScore.getD (3 / 10) : ℚ) : ℝ) ≤ r.score) ∧
    (∀ r ∈ out, r.chunk.embedding.isSome) ∧
    out.Pairwise (fun a b => b.score ≤ a.score) ∧
    out.length ≤ opts.topK.getD 5 ∧
    (∃ scored, scoreCandidates q (opts.minScore.getD (3 / 10))
        (candidateChunks (initStore s).mem opts.sourceIds) = .ok scored ∧
      out = (sortByScoreDesc scored).take (opts.topK.getD 5) ∧
      ∀ v : ℝ, out.filter (fun r => decide (r.score = v)) <+:
        scored.filter (fun r => decide (r.score = v))) := by
  rw [search] at h
  cases hsc : scoreCandidates q (opts.minScore.getD (3 / 10))
      (candidateChunks (initStore s).mem opts.sourceIds) with
  | error e =>
    simp only [hsc, Prod.mk.injEq] at h
    exact absurd h.2 (by simp)
  | ok scored =>
    simp only [hsc, Prod.mk.injEq, Except.ok.injEq] at h
    have hout : out = (sortByScoreDesc scored).take (opts.topK.getD 5) :=
      h.2.symm
    have hmem : ∀ r ∈ out, r ∈ scored := by
      intro r hr
      rw [hout] at hr
      exact (sortByScoreDesc_perm scored).mem_iff.1
        ((List.take_prefix _ _).subset hr)
    have hprops := scoreCandidates_ok_mem q (opts.minScore.getD (3 / 10)) _
      scored hsc
    refine ⟨?_, ?_, ?_, ?_, ?_, scored, rfl, hout, ?_⟩
    · intro r hr ids hids hne
      have hc := (hprops r (hmem r hr)).1
      rw [hids] at hc
      exact candidateChunks_mem_sourceIds _ ids hne _ hc
    · intro r hr
      exact (hprops r (hmem r hr)).2.2.1
    · intro r hr
      exact (hprops r (hmem r hr)).2.1
    · rw [hout]
      exact (sortByScoreDesc_pairwise scored).sublist
        (List.take_sublist _ _)
    · rw [hout]
      simp [List.length_take]
    · intro v
      rw [hout, ← sortByScoreDesc_filter_eq scored v]
      exact (List.take_prefix _ _).filter _

/-- The empty initialized store over a healthy empty table. -/
def emptySys : Sys := ⟨⟨[], [], true⟩, ⟨true, false, []⟩⟩

/-- Witness for C1: the theorem applied to a concrete successful search on
the empty store. -/
theorem claim_C1_witness : ([] : List SearchResult).length ≤ 5 :=
  (claim_C1_search emptySys [] ⟨none, none, none⟩ emptySys [] rfl).2.2.2.2.1

/-! ## Claim C7: `initialize` and persistence-failure behaviour -/

/-- A store whose persisted table exists but rejects every operation. -/
def failingSys : Sys := ⟨⟨[], [], true⟩, ⟨true, true, []⟩⟩

/-- **C7, counterexample**: the claim says a persistence failure during
*any* operation — `clear` included — does not propagate to the caller.  But
`VectorStore.clear` is the one method whose persistence call is not wrapped
in `try/catch`, so a rejected `db.vectorChunks.clear()` propagates. -/
theorem claim_C7_counterexample :
    failingSys.db.failing = true ∧
    (clearStore failingSys).2 = .error "vectorChunks.clear rejected" := by
  constructor
  · rfl
  · rfl

/-- **C7, amended**: `initialize` is idempotent, always completes with
`initialized = true`, and treats an unavailable or missing store as empty
(memory unchanged); persistence failures during `initialize`, `addChunks`
and `removeChunksBySourceId` never propagate and never affect the in-memory
result (which is a function of the in-memory state alone once initialized);
`clear` always empties the in-memory maps, but a persistence failure during
its table-clear *does* propagate to the caller. -/
theorem claim_C7_persistence (s : Sys) :
    (initStore (initStore s) = initStore s ∧
      (initStore s).mem.initialized = true) ∧
    (s.db.failing = true ∨ s.db.tableExists = false →
      (initStore s).mem = ⟨s.mem.chunks, s.mem.sourceChunks, true⟩) ∧
    (s.mem.initialized = true →
      (∀ cs db', (addChunks ⟨s.mem, db'⟩ cs).mem = (addChunks s cs).mem) ∧
      (∀ src db', (removeChunksBySourceId ⟨s.mem, db'⟩ src).mem =
        (removeChunksBySourceId s src).mem)) ∧
    ((clearStore s).1.mem = ⟨[], [], s.mem.initialized⟩ ∧
      ((clearStore s).2 = .ok () ↔
        ¬(s.db.tableExists = true ∧ s.db.failing = true))) := by
  have hinit2 : (initStore s).mem.initialized = true := by
    rw [initStore]
    by_cases h : s.mem.initialized = true
    · rw [if_pos h]; exact h
    · rw [if_neg h]
  refine ⟨⟨?_, hinit2⟩, ?_, ?_, ?_, ?_⟩
  · rw [initStore, if_pos hinit2]
  · intro hdb
    rw [initStore]
    by_cases h : s.mem.initialized = true
    · rw [if_pos h]
      cases hm : s.mem with
      | mk a b c =>
        rw [hm] at h
        simp only at h
        rw [h]
    · rw [if_neg h]
      have hload : loadFromDB s.mem s.db = s.mem := by
        rw [loadFromDB]
        by_cases ht : s.db.tableExists = true
        · rw [if_neg (by simp [ht])]
          rcases hdb with hdb | hdb
          · rw [if_pos hdb]
          · exact absurd hdb (by simp [ht])
        · rw [if_pos ht]
      rw [hload]
  · intro hinit
    constructor
    · intro cs db'
      rw [addChunks, addChunks, initStore, initStore]
      simp [hinit]
    · intro src db'
      rw [removeChunksBySourceId, removeChunksBySourceId, initStore, initStore]
      simp only [hinit, if_true]
      cases mapGet s.mem.sourceChunks src <;> rfl
  · rw [clearStore]
    by_cases ht : s.db.tableExists = true
    · by_cases hf : s.db.failing = true
      · rw [if_neg (by simp [ht]), if_pos hf]
      · rw [if_neg (by simp [ht]), if_neg hf]
    · rw [if_pos ht]
  · rw [clearStore]
    by_cases ht : s.db.tableExists = true
    · by_cases hf : s.db.failing = true
      · rw [if_neg (by simp [ht]), if_pos hf]
        simp [ht, hf]
      · rw [if_neg (by simp [ht]), if_neg hf]
        simp [hf]
    · rw [if_pos ht]
      simp [ht]

/-- Witness for C7 (amended) at a concrete initialized store. -/
theorem claim_C7_witness :
    (addChunks ⟨emptySys.mem, ⟨true, true, []⟩⟩ []).mem =
      (addChunks emptySys []).mem :=
  ((claim_C7_persistence emptySys).2.2.1 rfl).1 [] ⟨true, true, []⟩

/-! ## The Chunker (`chunkText`, `embeddingService.ts` lines 578–655)

Strings are embedded through their character lists.  The two regex splits
(`/\n\s*\n/` for paragraphs, `/[.!?]+\s+/` for sentences) are embedded as
explicit left-to-right scanners with the exact leftmost-match/greedy
semantics of `String.prototype.split`. -/

/-- JS `\s` (the inputs of interest are ASCII; `Char.isWhitespace` covers
space, tab, carriage return and newline). -/
def isWS (c : Char) : Bool := c.isWhitespace

/-- `.replace(/\s+/g, ' ')`: every maximal whitespace run becomes one
space.  The `Bool` records whether the previous character was whitespace. -/
def collapseWSAux : Bool → List Char → List Char
  | _, [] => []
  | prevWS, c :: rest =>
    if isWS c then
      if prevWS then collapseWSAux true rest
      else ' ' :: collapseWSAux true rest
    else c :: collapseWSAux false rest

def collapseWS (cs : List Char) : List Char := collapseWSAux false cs

/-- `.replace(/\n+/g, '\n')`: every maximal newline run becomes one
newline.  (Dead after `collapseWS`, which leaves no newline at all; kept
for faithfulness.) -/
def collapseNLAux : Bool → List Char → List Char
  | _, [] => []
  | prevNL, c :: rest =>
    if c = '\n' then
      if prevNL then collapseNLAux true rest
      else '\n' :: collapseNLAux true rest
    else c :: collapseNLAux false rest

def collapseNL (cs : List Char) : List Char := collapseNLAux false cs

/-- `.trim()`. -/
def trimChars (cs : List Char) : List Char :=
  ((cs.dropWhile isWS).reverse.dropWhile isWS).reverse

/-- The characters of a backtracked `\\s*`-match tail: everything after the
last `'\\n'`. -/
def afterLastNL (l : List Char) : List Char :=
  (l.reverse.takeWhile (fun c => c ≠ '\n')).reverse

/-- Scanner for `.split(/\\n\\s*\\n/)`.  Arguments: the current piece and the
remaining input.  A match is a `'\n'`, then the longest whitespace run that
still ends right before a `'\n'` (greedy `\\s*` with backtracking), then that
`'\n'`; whitespace after the last `'\n'` of the run belongs to the next
piece.  `pendAux` consumes the whitespace run once a `'\n'` has been seen. -/
def splitParasAux (cur : List Char) : List Char → List (List Char)
  | [] => [cur]
  | c :: rest =>
    if c = '\n' then splitParasPend cur [] rest
    else splitParasAux (cur ++ [c]) rest
where
  /-- After a `'\n'`: `pend` is the whitespace run read so far. -/
  splitParasPend (cur pend : List Char) : List Char → List (List Char)
  | [] =>
    if '\n' ∈ pend then [cur, afterLastNL pend]
    else [cur ++ '\n' :: pend]
  | c :: rest =>
    if isWS c then splitParasPend cur (pend ++ [c]) rest
    else if '\n' ∈ pend then
      cur :: splitParasAux (afterLastNL pend ++ [c]) rest
    else splitParasAux (cur ++ '\n' :: pend ++ [c]) rest

/-- `.split(/\\n\\s*\\n/)`. -/
def splitParas (cs : List Char) : List (List Char) := splitParasAux [] cs

/-- `[.!?]`. -/
def isPunct (c : Char) : Bool := c = '.' || c = '!' || c = '?'

/-- Scanner for `.split(/[.!?]+\\s+/)`.  Arguments: current piece, pending
punctuation run, remaining input.  A punctuation run directly followed by
whitespace is a separator (the run is consumed, `sepAux` then swallows the
rest of the whitespace); a punctuation run followed by anything else is
ordinary text. -/
def splitSentencesAux (cur pend : List Char) : List Char → List (List Char)
  | [] => [cur ++ pend]
  | c :: rest =>
    if isPunct c then splitSentencesAux cur (pend ++ [c]) rest
    else if isWS c then
      if pend = [] then splitSentencesAux (cur ++ [c]) [] rest
      else cur :: splitSentencesSep rest
    else splitSentencesAux (cur ++ pend ++ [c]) [] rest
where
  /-- Inside the `\\s+` of a matched separator. -/
  splitSentencesSep : List Char → List (List Char)
  | [] => [[]]
  | c :: rest =>
    if isWS c then splitSentencesSep rest
    else if isPunct c then splitSentencesAux [] [c] rest
    else splitSentencesAux [c] [] rest

/-- `.split(/[.!?]+\\s+/)`. -/
def splitSentences (cs : List Char) : List (List Char) :=
  splitSentencesAux [] [] cs

/-- `.split(' ')` (single-space separator, empty pieces kept). -/
def splitOnSpace : List Char → List (List Char)
  | [] => [[]]
  | c :: rest =>
    match splitOnSpace rest with
    | [] => [[]]
    | p :: ps => if c = ' ' then [] :: p :: ps else (c :: p) :: ps

/-- `.join(' ')`. -/
def joinSpace : List (List Char) → List Char
  | [] => []
  | [w] => w
  | w :: ws => w ++ ' ' :: joinSpace ws

/-- `currentChunk.split(' ').slice(-overlap).join(' ')`.  (`slice(-0)` in
JS is the whole array, hence the guard.) -/
def lastWords (overlap : Nat) (cs : List Char) : List Char :=
  let words := splitOnSpace cs
  if overlap = 0 then joinSpace words
  else joinSpace (words.drop (words.length - overlap))

/-- The body of the sentence loop (lines 630–642): append the sentence, or
emit the buffer (when it reached `minChunkSize`) and seed the next buffer
with the last `overlap` words. -/
def sentenceStep (maxCS minCS overlap : Nat)
    (st : List (List Char) × List Char) (s : List Char) :
    List (List Char) × List Char :=
  let chunks := st.1
  let cur := st.2
  if maxCS < (cur ++ ' ' :: s).length then
    if minCS ≤ cur.length then
      (chunks ++ [trimChars cur], lastWords overlap cur ++ ' ' :: s)
    else (chunks, cur ++ ' ' :: s)
  else (chunks, cur ++ ' ' :: s)

/-- The body of the paragraph loop (lines 608–647), including the
sentence-granularity re-split of an oversized paragraph (which resets the
buffer to `''`, discarding the seeded overlap — faithful to the source). -/
def paragraphStep (maxCS minCS overlap : Nat)
    (st : List (List Char) × List Char) (paragraph : List Char) :
    List (List Char) × List Char :=
  let chunks := st.1
  let cur := st.2
  let tp := trimChars paragraph
  if tp = [] then st
  else if maxCS < (cur ++ ' ' :: tp).length then
    let st1 :=
      if minCS ≤ cur.length then
        (chunks ++ [trimChars cur], lastWords overlap cur ++ ' ' :: tp)
      else (chunks, cur ++ ' ' :: tp)
    if maxCS < tp.length then
      (splitSentences tp).foldl (sentenceStep maxCS minCS overlap) (st1.1, [])
    else st1
  else (chunks, cur ++ ' ' :: tp)

/-- `chunkText` over character lists: normalize, short-circuit when the
clean text fits in one chunk, otherwise run the paragraph loop, emit the
trailing buffer when it reaches `minChunkSize`, and drop empty chunks. -/
def chunkTextL (text : List Char) (maxCS overlap minCS : Nat) :
    List (List Char) :=
  let cleanText := trimChars (collapseNL (collapseWS text))
  if cleanText.length ≤ maxCS then [cleanText]
  else
    let paragraphs := splitParas cleanText
    let st := paragraphs.foldl (paragraphStep maxCS minCS overlap) ([], [])
    let chunks :=
      if minCS ≤ (trimChars st.2).length then st.1 ++ [trimChars st.2]
      else st.1
    chunks.filter (fun c => 0 < c.length)

/-- Option bag of `chunkText` (defaults 512 / 50 / 100). -/
structure ChunkOptions where
  maxChunkSize : Option Nat := none
  overlap : Option Nat := none
  minChunkSize : Option Nat := none

/-- `chunkText` on strings. -/
def chunkText (text : String) (options : ChunkOptions) : List String :=
  (chunkTextL text.data (options.maxChunkSize.getD 512)
    (options.overlap.getD 50) (options.minChunkSize.getD 100)).map
    (fun cs => String.mk cs)

/-- The whitespace normalization of step 1, as a string. -/
def normalizeText (text : String) : String :=
  String.mk (trimChars (collapseNL (collapseWS text.data)))

/-! ## Claims C3 and C4: the Chunker -/

theorem length_mk_eq (cs : List Char) : (String.mk cs).length = cs.length := rfl

theorem mk_ne_empty_of_length_pos (cs : List Char) (h : 0 < cs.length) :
    String.mk cs ≠ "" := by
  intro hc
  have : cs = [] := by
    have := congrArg String.data hc
    simpa using this
  rw [this] at h
  exact absurd h (by simp)

/-- **C3, amended**: with default options, a normalized text of length at
most `512` is returned as the sole chunk — even when it is empty, so an
empty or whitespace-only input yields `[""]`; in the multi-chunk path every
returned chunk is non-empty (the final filter), but an emitted chunk is
only guaranteed to come from a buffer of *pre-trim* length at least
`minChunkSize`, not to have content length at least `100` itself. -/
theorem claim_C3_chunk_bounds (text : String) :
    ((normalizeText text).length ≤ 512 →
      chunkText text ⟨none, none, none⟩ = [normalizeText text]) ∧
    (512 < (normalizeText text).length →
      ∀ c ∈ chunkText text ⟨none, none, none⟩, c ≠ "") := by
  constructor
  · intro h
    rw [normalizeText, length_mk_eq] at h
    rw [chunkText, chunkTextL, normalizeText]
    simp only [Option.getD]
    rw [if_pos h]
    simp
  · intro h
    rw [normalizeText, length_mk_eq] at h
    intro c hc
    rw [chunkText, chunkTextL] at hc
    simp only [Option.getD] at hc
    rw [if_neg (by omega)] at hc
    rcases List.mem_map.1 hc with ⟨cs, hcs, rfl⟩
    rcases List.mem_filter.1 hcs with ⟨_, hpos⟩
    exact mk_ne_empty_of_length_pos cs (of_decide_eq_true hpos)

/-- Witness for C3 (amended) at a concrete short input. -/
theorem claim_C3_witness : chunkText "hi" ⟨none, none, none⟩ = ["hi"] := by
  have h := (claim_C3_chunk_bounds "hi").1 (by decide)
  rw [h]
  rfl

/-- The 551-character input `'a'*99 ++ ". " ++ 'b'*450`: its first chunk
has 99 characters and is neither the sole nor the trailing chunk. -/
def shortMiddleInput : String :=
  String.mk (List.replicate 99 'a') ++ ". " ++ String.mk (List.replicate 450 'b')

set_option maxRecDepth 1000000 in
/-- **C3, counterexample**: (1) on the empty input the short-circuit
returns `[""]`, an empty chunk; (2) on `shortMiddleInput` (length `551`,
multi-chunk path) the output has two chunks and the *first* one — neither
sole nor trailing — has length `99 < 100 = minChunkSize`. -/
theorem claim_C3_counterexample :
    ("" ∈ chunkText "" ⟨none, none, none⟩) ∧
    (chunkText shortMiddleInput ⟨none, none, none⟩).length = 2 ∧
    ((chunkText shortMiddleInput ⟨none, none, none⟩).getD 0 "").length = 99 := by
  refine ⟨?_, ?_, ?_⟩
  · decide
  · decide
  · decide

/-! ### Word-level algebra of `splitOnSpace` / `joinSpace` -/

theorem splitOnSpace_ne_nil (l : List Char) : splitOnSpace l ≠ [] := by
  cases l with
  | nil => simp [splitOnSpace]
  | cons c rest =>
    rw [splitOnSpace]
    cases splitOnSpace rest with
    | nil => simp
    | cons p ps => by_cases h : c = ' ' <;> simp [h]

theorem splitOnSpace_exists_cons (l : List Char) :
    ∃ p ps, splitOnSpace l = p :: ps := by
  cases h : splitOnSpace l with
  | nil => exact absurd h (splitOnSpace_ne_nil l)
  | cons p ps => exact ⟨p, ps, rfl⟩

/-- `join ∘ split = id` (split on a single space loses nothing). -/
theorem joinSpace_splitOnSpace (l : List Char) :
    joinSpace (splitOnSpace l) = l := by
  induction l with
  | nil => simp [splitOnSpace, joinSpace]
  | cons c rest ih =>
    rw [splitOnSpace]
    obtain ⟨p, ps, hps⟩ := splitOnSpace_exists_cons rest
    rw [hps]
    rw [hps] at ih
    by_cases h : c = ' '
    · subst h
      simp only [if_pos rfl]
      cases ps with
      | nil => simp [joinSpace] at ih ⊢; exact ih
      | cons q qs => simp [joinSpace] at ih ⊢; exact ih
    · simp only [if_neg h]
      cases ps with
      | nil => simp [joinSpace] at ih ⊢; rw [ih]
      | cons q qs => simp [joinSpace] at ih ⊢; rw [ih]

theorem splitOnSpace_cons_space (l : List Char) :
    splitOnSpace (' ' :: l) = [] :: splitOnSpace l := by
  rw [splitOnSpace]
  obtain ⟨p, ps, hps⟩ := splitOnSpace_exists_cons l
  rw [hps]
  simp

/-- A space-free word passes through `splitOnSpace` as a prefix of the
first piece. -/
theorem splitOnSpace_append_spaceFree (w l : List Char)
    (hw : ∀ c ∈ w, c ≠ ' ') :
    splitOnSpace (w ++ l) =
      (w ++ (splitOnSpace l).headD []) :: (splitOnSpace l).tail := by
  induction w with
  | nil =>
    obtain ⟨p, ps, hps⟩ := splitOnSpace_exists_cons l
    simp [hps]
  | cons c w' ih =>
    have hc : c ≠ ' ' := hw c (by simp)
    have ihw : ∀ x ∈ w', x ≠ ' ' := fun x hx => hw x (by simp [hx])
    rw [List.cons_append, splitOnSpace, ih ihw]
    simp [hc]

theorem splitOnSpace_spaceFree (w : List Char) (hw : ∀ c ∈ w, c ≠ ' ') :
    splitOnSpace w = [w] := by
  have := splitOnSpace_append_spaceFree w [] hw
  simpa [splitOnSpace] using this

theorem joinSpace_append (ws ws' : List (List Char)) (h : ws ≠ [])
    (h' : ws' ≠ []) :
    joinSpace (ws ++ ws') = joinSpace ws ++ ' ' :: joinSpace ws' := by
  induction ws with
  | nil => exact absurd rfl h
  | cons w rest ih =>
    cases rest with
    | nil =>
      cases ws' with
      | nil => exact absurd rfl h'
      | cons v vs => simp [joinSpace]
    | cons w2 rest2 =>
      have hih := ih (by simp)
      simp only [List.cons_append] at hih ⊢
      rw [show joinSpace (w :: w2 :: (rest2 ++ ws')) =
            w ++ ' ' :: joinSpace (w2 :: (rest2 ++ ws')) from rfl,
          show joinSpace (w :: w2 :: rest2) =
            w ++ ' ' :: joinSpace (w2 :: rest2) from rfl]
      rw [hih]
      simp

/-- `split ∘ join = id` on space-free words. -/
theorem splitOnSpace_joinSpace (ws : List (List Char)) (hne : ws ≠ [])
    (hw : ∀ w ∈ ws, ∀ c ∈ w, c ≠ ' ') :
    splitOnSpace (joinSpace ws) = ws := by
  induction ws with
  | nil => exact absurd rfl hne
  | cons w rest ih =>
    cases rest with
    | nil =>
      rw [joinSpace]
      exact splitOnSpace_spaceFree w (hw w (by simp))
    | cons v vs =>
      have hj : joinSpace (w :: v :: vs) = w ++ ' ' :: joinSpace (v :: vs) := by
        simp [joinSpace]
      rw [hj, splitOnSpace_append_spaceFree w _ (hw w (by simp)),
        splitOnSpace_cons_space,
        ih (by simp) (fun x hx => hw x (by simp [hx]))]
      simp

/-! ### Trimming lemmas -/

theorem dropWhile_eq_cons_head_false {p : Char → Bool} {l : List Char}
    {c : Char} {t : List Char} (h : l.dropWhile p = c :: t) : p c = false := by
  induction l with
  | nil => simp [List.dropWhile] at h
  | cons c0 rest ih =>
    rw [List.dropWhile_cons] at h
    by_cases h0 : p c0 = true
    · rw [if_pos h0] at h
      exact ih h
    · rw [if_neg h0] at h
      rcases h with ⟨rfl, -⟩
      · simpa using h0

theorem trim_eq_self (l : List Char)
    (h1 : ∀ c t, l = c :: t → isWS c = false)
    (h2 : ∀ c t, l.reverse = c :: t → isWS c = false) :
    trimChars l = l := by
  cases l with
  | nil => rfl
  | cons c t =>
    have hc : isWS c = false := h1 c t rfl
    rw [trimChars, List.dropWhile_cons, if_neg (by simp [hc])]
    cases hr : (c :: t).reverse with
    | nil => simp at hr
    | cons d t' =>
      have hd : isWS d = false := h2 d t' hr
      rw [List.dropWhile_cons, if_neg (by simp [hd])]
      have := congrArg List.reverse hr
      simp only [List.reverse_reverse] at this
      exact this.symm

theorem trimChars_cons_space (l : List Char) :
    trimChars (' ' :: l) = trimChars l := by
  rw [trimChars, trimChars, List.dropWhile_cons, if_pos (by simp [isWS])]

theorem trimChars_idem (l : List Char) :
    trimChars (trimChars l) = trimChars l := by
  apply trim_eq_self
  · intro c t h
    have h1 : (((l.dropWhile isWS).reverse.takeWhile isWS) ++
        ((l.dropWhile isWS).reverse.dropWhile isWS)).reverse = l.dropWhile isWS := by
      rw [List.takeWhile_append_dropWhile, List.reverse_reverse]
    rw [List.reverse_append] at h1
    have hT : trimChars l ++
        ((l.dropWhile isWS).reverse.takeWhile isWS).reverse =
          l.dropWhile isWS := h1
    rw [h] at hT
    exact dropWhile_eq_cons_head_false hT.symm
  · intro c t h
    rw [trimChars, List.reverse_reverse] at h
    exact dropWhile_eq_cons_head_false h

/-! ### Reaching the sentence loop -/

theorem collapseWSAux_mem_ws (l : List Char) (b : Bool) (c : Char)
    (hc : c ∈ collapseWSAux b l) (hws : isWS c = true) : c = ' ' := by
  induction l generalizing b with
  | nil => simp [collapseWSAux] at hc
  | cons c0 rest ih =>
    rw [collapseWSAux] at hc
    by_cases h0 : isWS c0 = true
    · rw [if_pos h0] at hc
      by_cases hb : b = true
      · rw [if_pos hb] at hc
        exact ih true hc
      · rw [if_neg hb] at hc
        rcases List.mem_cons.1 hc with rfl | hc
        · rfl
        · exact ih true hc
    · rw [if_neg h0] at hc
      rcases List.mem_cons.1 hc with rfl | hc
      · rw [hws] at h0; exact absurd rfl h0
      · exact ih false hc

theorem no_nl_collapseWS (l : List Char) : '\n' ∉ collapseWS l := by
  intro h
  have := collapseWSAux_mem_ws l false '\n' h (by decide)
  exact absurd this (by decide)

theorem collapseNLAux_eq_self (l : List Char) (b : Bool) (h : '\n' ∉ l) :
    collapseNLAux b l = l := by
  induction l generalizing b with
  | nil => rfl
  | cons c rest ih =>
    have hc : ¬c = '\n' := fun hh => h (by simp [hh])
    rw [collapseNLAux, if_neg hc, ih false (fun hh => h (by simp [hh]))]

theorem mem_trimChars (l : List Char) (c : Char) (h : c ∈ trimChars l) :
    c ∈ l := by
  rw [trimChars] at h
  rw [List.mem_reverse] at h
  have h2 : c ∈ (l.dropWhile isWS).reverse :=
    (List.dropWhile_sublist _).subset h
  rw [List.mem_reverse] at h2
  exact (List.dropWhile_sublist _).subset h2

theorem splitParasAux_no_nl (l : List Char) (h : '\n' ∉ l) (cur : List Char) :
    splitParasAux cur l = [cur ++ l] := by
  induction l generalizing cur with
  | nil => simp [splitParasAux]
  | cons c rest ih =>
    have hc : ¬c = '\n' := fun hh => h (by simp [hh])
    rw [splitParasAux, if_neg hc,
      ih (fun hh => h (by simp [hh])) (cur ++ [c])]
    simp

/-- After normalization there is never more than one paragraph: the first
regex replaces every whitespace run — newlines included — by a single
space. -/
theorem splitParas_clean (text : List Char) :
    splitParas (trimChars (collapseNL (collapseWS text))) =
      [trimChars (collapseNL (collapseWS text))] := by
  have heq : collapseNL (collapseWS text) = collapseWS text := by
    rw [collapseNL]
    exact collapseNLAux_eq_self _ false (no_nl_collapseWS text)
  have hnl : '\n' ∉ trimChars (collapseNL (collapseWS text)) := by
    intro h
    rw [heq] at h
    exact no_nl_collapseWS text (mem_trimChars _ _ h)
  rw [splitParas, splitParasAux_no_nl _ hnl []]
  simp

theorem paragraphStep_long (clean : List Char) (hlen : 512 < clean.length)
    (htrim : trimChars clean = clean) :
    paragraphStep 512 100 50 ([], []) clean =
      (splitSentences clean).foldl (sentenceStep 512 100 50) ([], []) := by
  rw [paragraphStep]
  simp only [htrim]
  rw [if_neg (show ¬clean = [] by intro hh; rw [hh] at hlen; simp at hlen)]
  rw [if_pos (show 512 < (([] : List Char) ++ ' ' :: clean).length by
    simp; omega)]
  rw [if_pos hlen]
  rw [if_neg (show ¬(100 ≤ ([] : List Char).length) by simp)]

/-- On a long input, `chunkText` is exactly the sentence loop over the
sentence pieces of the normalized text, followed by the trailing-buffer
emission and the empty-chunk filter. -/
theorem chunkTextL_long (text : List Char)
    (hlen : 512 < (trimChars (collapseNL (collapseWS text))).length) :
    chunkTextL text 512 50 100 =
      ((if 100 ≤ (trimChars ((splitSentences
            (trimChars (collapseNL (collapseWS text)))).foldl
            (sentenceStep 512 100 50) ([], [])).2).length then
          ((splitSentences (trimChars (collapseNL (collapseWS text)))).foldl
            (sentenceStep 512 100 50) ([], [])).1 ++
            [trimChars ((splitSentences
              (trimChars (collapseNL (collapseWS text)))).foldl
              (sentenceStep 512 100 50) ([], [])).2]
        else ((splitSentences (trimChars (collapseNL (collapseWS text)))).foldl
            (sentenceStep 512 100 50) ([], [])).1).filter
        (fun c => 0 < c.length)) := by
  have hstep := paragraphStep_long (trimChars (collapseNL (collapseWS text)))
    hlen (trimChars_idem _)
  simp only [chunkTextL, splitParas_clean, List.foldl_cons, List.foldl_nil,
    hstep]
  rw [if_neg (by omega)]

/-! ### Word buffers and the overlap invariant -/

/-- A non-empty whitespace-free word. -/
def goodWord (w : List Char) : Prop := w ≠ [] ∧ ∀ c ∈ w, isWS c = false

/-- A non-empty list of good words. -/
def goodWords (ws : List (List Char)) : Prop := ws ≠ [] ∧ ∀ w ∈ ws, goodWord w

theorem goodWords_spaceFree {ws : List (List Char)} (h : goodWords ws) :
    ∀ w ∈ ws, ∀ c ∈ w, c ≠ ' ' := by
  intro w hw c hc hsp
  have := (h.2 w hw).2 c hc
  rw [hsp] at this
  simp [isWS] at this

theorem goodWords_append {ws ws' : List (List Char)} (h : goodWords ws)
    (h' : goodWords ws') : goodWords (ws ++ ws') := by
  refine ⟨by simp [h.1], ?_⟩
  intro w hw
  rcases List.mem_append.1 hw with hw | hw
  · exact h.2 w hw
  · exact h'.2 w hw

theorem joinSpace_ne_nil {ws : List (List Char)} (h : goodWords ws) :
    joinSpace ws ≠ [] := by
  cases ws with
  | nil => exact absurd rfl h.1
  | cons w rest =>
    cases rest with
    | nil =>
      rw [joinSpace]
      exact (h.2 w (by simp)).1
    | cons v vs =>
      rw [show joinSpace (w :: v :: vs) = w ++ ' ' :: joinSpace (v :: vs)
        from rfl]
      have := (h.2 w (by simp)).1
      cases w with
      | nil => exact absurd rfl this
      | cons c t => simp

theorem joinSpace_head {ws : List (List Char)} (h : goodWords ws) :
    ∀ c t, joinSpace ws = c :: t → isWS c = false := by
  intro c t hj
  cases ws with
  | nil => exact absurd rfl h.1
  | cons w rest =>
    have hw := h.2 w (by simp)
    cases rest with
    | nil =>
      rw [joinSpace] at hj
      subst hj
      exact hw.2 c (by simp)
    | cons v vs =>
      rw [show joinSpace (w :: v :: vs) = w ++ ' ' :: joinSpace (v :: vs)
        from rfl] at hj
      cases w with
      | nil => exact absurd rfl hw.1
      | cons c0 t0 =>
        simp only [List.cons_append, List.cons.injEq] at hj
        rw [← hj.1]
        exact hw.2 c0 (by simp)

theorem joinSpace_rev_head {ws : List (List Char)} (h : goodWords ws) :
    ∀ c t, (joinSpace ws).reverse = c :: t → isWS c = false := by
  induction ws with
  | nil => exact absurd rfl h.1
  | cons w rest ih =>
    have hw := h.2 w (by simp)
    intro c t hj
    cases rest with
    | nil =>
      rw [joinSpace] at hj
      have hc : c ∈ w := by
        have : c ∈ w.reverse := by rw [hj]; simp
        simpa using this
      exact hw.2 c hc
    | cons v vs =>
      rw [show joinSpace (w :: v :: vs) = w ++ ' ' :: joinSpace (v :: vs)
          from rfl, List.reverse_append] at hj
      have hrest : goodWords (v :: vs) :=
        ⟨by simp, fun x hx => h.2 x (by simp [hx])⟩
      have hne : joinSpace (v :: vs) ≠ [] := joinSpace_ne_nil hrest
      cases hr : (joinSpace (v :: vs)).reverse with
      | nil =>
        exact absurd (by simpa using congrArg List.reverse hr) hne
      | cons d u =>
        rw [show (' ' :: joinSpace (v :: vs)).reverse =
            (joinSpace (v :: vs)).reverse ++ [' '] by simp, hr] at hj
        simp only [List.cons_append, List.cons.injEq] at hj
        rw [← hj.1]
        exact ih hrest d u hr

theorem trimChars_joinSpace {ws : List (List Char)} (h : goodWords ws) :
    trimChars (joinSpace ws) = joinSpace ws :=
  trim_eq_self _ (joinSpace_head h) (joinSpace_rev_head h)

theorem trimChars_space_joinSpace {ws : List (List Char)} (h : goodWords ws) :
    trimChars (' ' :: joinSpace ws) = joinSpace ws := by
  rw [trimChars_cons_space, trimChars_joinSpace h]

theorem splitOnSpace_joinSpace_good {ws : List (List Char)}
    (h : goodWords ws) : splitOnSpace (joinSpace ws) = ws :=
  splitOnSpace_joinSpace ws h.1 (goodWords_spaceFree h)

/-- The last-50-words window. -/
def w50 (ws : List (List Char)) : List (List Char) :=
  ws.drop (ws.length - 50)

theorem goodWords_w50 {ws : List (List Char)} (h : goodWords ws) :
    goodWords (w50 ws) := by
  constructor
  · have hlen : (w50 ws).length = ws.length - (ws.length - 50) := by
      simp [w50]
    intro hnil
    rw [hnil] at hlen
    have hpos : 0 < ws.length := List.length_pos.2 h.1
    simp at hlen
    omega
  · intro w hw
    exact h.2 w (List.drop_subset _ _ hw)

theorem lastWords_joinSpace {ws : List (List Char)} (h : goodWords ws) :
    lastWords 50 (joinSpace ws) = joinSpace (w50 ws) := by
  rw [lastWords, splitOnSpace_joinSpace_good h]
  simp [w50]

theorem lastWords_space_joinSpace {ws : List (List Char)} (h : goodWords ws) :
    lastWords 50 (' ' :: joinSpace ws) =
      if ws.length ≤ 49 then ' ' :: joinSpace ws else joinSpace (w50 ws) := by
  rw [lastWords]
  simp only [splitOnSpace_cons_space, splitOnSpace_joinSpace_good h]
  rw [if_neg (by omega)]
  by_cases hlen : ws.length ≤ 49
  · rw [if_pos hlen]
    have h0 : ([] :: ws).length - 50 = 0 := by simp; omega
    rw [h0, List.drop_zero]
    cases ws with
    | nil => exact absurd rfl h.1
    | cons v vs => rw [show joinSpace ([] :: v :: vs) =
        [] ++ ' ' :: joinSpace (v :: vs) from rfl]; simp
  · rw [if_neg hlen]
    have h1 : ([] :: ws).length - 50 = (ws.length - 50) + 1 := by simp; omega
    rw [h1, List.drop_succ_cons]
    rfl

/-- A sentence piece whose space-split consists of non-empty,
whitespace-free words (automatic for normalized text without degenerate
punctuation patterns). -/
def goodPiece (s : List Char) : Prop :=
  ∀ w ∈ splitOnSpace s, w ≠ [] ∧ ∀ c ∈ w, isWS c = false

/-- Invariant of the sentence loop: the buffer is a (possibly
space-prefixed) join of good words; all emitted chunks are non-empty,
consecutive emitted chunks satisfy the 50-word-overlap property, and the
last emitted chunk's 50-word tail is a prefix of the trimmed buffer. -/
def ChunkInv (st : List (List Char) × List Char) : Prop :=
  (st.2 = [] → st.1 = []) ∧
  (st.2 = [] ∨ ∃ ws, goodWords ws ∧
    (st.2 = joinSpace ws ∨ st.2 = ' ' :: joinSpace ws)) ∧
  (∀ c ∈ st.1, c ≠ []) ∧
  (∀ i, i + 1 < st.1.length →
    lastWords 50 (st.1.getD i []) <+: st.1.getD (i + 1) []) ∧
  (∀ lc, st.1.getLast? = some lc → lastWords 50 lc <+: trimChars st.2)

theorem getLast?_eq_getD (l : List (List Char)) (h : l ≠ []) :
    l.getLast? = some (l.getD (l.length - 1) []) := by
  rw [List.getLast?_eq_getElem?, List.getD_eq_getElem?_getD]
  have hlt : l.length - 1 < l.length := by
    have := List.length_pos.2 h
    omega
  rw [List.getElem?_eq_getElem hlt]
  simp

theorem overlap_append (l : List (List Char)) (x : List Char)
    (h4 : ∀ i, i + 1 < l.length →
      lastWords 50 (l.getD i []) <+: l.getD (i + 1) [])
    (hl : ∀ lc, l.getLast? = some lc → lastWords 50 lc <+: x) :
    ∀ i, i + 1 < (l ++ [x]).length →
      lastWords 50 ((l ++ [x]).getD i []) <+: (l ++ [x]).getD (i + 1) [] := by
  intro i hi
  simp only [List.length_append, List.length_cons, List.length_nil] at hi
  by_cases hcase : i + 1 < l.length
  · rw [List.getD_append _ _ _ _ (by omega), List.getD_append _ _ _ _ hcase]
    exact h4 i hcase
  · have hieq : i + 1 = l.length := by omega
    have hipos : i < l.length := by omega
    have hlne : l ≠ [] := by
      intro hh
      rw [hh] at hipos
      simp at hipos
    rw [List.getD_append _ _ _ _ hipos, hieq,
      List.getD_append_right _ _ _ _ (le_refl _)]
    simp only [Nat.sub_self]
    apply hl
    rw [getLast?_eq_getD l hlne]
    rw [show l.length - 1 = i by omega]

theorem ChunkInv_append (st : List (List Char) × List Char) (s : List Char)
    (hinv : ChunkInv st) (hs : goodPiece s) :
    ChunkInv (st.1, st.2 ++ ' ' :: s) := by
  obtain ⟨h1, h2, h3, h4, h5⟩ := hinv
  have hsw : goodWords (splitOnSpace s) := ⟨splitOnSpace_ne_nil s, hs⟩
  have hjs : joinSpace (splitOnSpace s) = s := joinSpace_splitOnSpace s
  refine ⟨?_, ?_, h3, h4, ?_⟩
  · intro hh
    exfalso
    rcases List.append_eq_nil.1 hh with ⟨-, hh2⟩
    simp at hh2
  · right
    rcases h2 with hnil | ⟨ws, hws, hform⟩
    · refine ⟨splitOnSpace s, hsw, Or.inr ?_⟩
      rw [hnil, hjs]
      simp
    · rcases hform with hf | hf
      · refine ⟨ws ++ splitOnSpace s, goodWords_append hws hsw, Or.inl ?_⟩
        rw [hf, joinSpace_append _ _ hws.1 hsw.1, hjs]
      · refine ⟨ws ++ splitOnSpace s, goodWords_append hws hsw, Or.inr ?_⟩
        rw [hf, joinSpace_append _ _ hws.1 hsw.1, hjs]
        simp
  · intro lc hlc
    have hne : st.1 ≠ [] := by
      intro hh
      rw [hh] at hlc
      simp at hlc
    have h2ne : st.2 ≠ [] := fun hh => hne (h1 hh)
    rcases h2 with hnil | ⟨ws, hws, hform⟩
    · exact absurd hnil h2ne
    · have hold := h5 lc hlc
      have htrimold : trimChars st.2 = joinSpace ws := by
        rcases hform with hf | hf
        · rw [hf, trimChars_joinSpace hws]
        · rw [hf, trimChars_space_joinSpace hws]
      have htrimnew : trimChars (st.2 ++ ' ' :: s) =
          joinSpace ws ++ ' ' :: joinSpace (splitOnSpace s) := by
        rcases hform with hf | hf
        · rw [hf, show joinSpace ws ++ ' ' :: s =
              joinSpace (ws ++ splitOnSpace s) by
            rw [joinSpace_append _ _ hws.1 hsw.1, hjs],
            trimChars_joinSpace (goodWords_append hws hsw),
            joinSpace_append _ _ hws.1 hsw.1]
        · rw [hf, show (' ' :: joinSpace ws) ++ ' ' :: s =
              ' ' :: joinSpace (ws ++ splitOnSpace s) by
            rw [joinSpace_append _ _ hws.1 hsw.1, hjs]; simp,
            trimChars_space_joinSpace (goodWords_append hws hsw),
            joinSpace_append _ _ hws.1 hsw.1]
      rw [htrimnew]
      rw [htrimold] at hold
      exact hold.trans (List.prefix_append _ _)

theorem ChunkInv_push (st : List (List Char) × List Char) (s : List Char)
    (hinv : ChunkInv st) (hs : goodPiece s) (hlen : 100 ≤ st.2.length) :
    ChunkInv (st.1 ++ [trimChars st.2], lastWords 50 st.2 ++ ' ' :: s) := by
  obtain ⟨h1, h2, h3, h4, h5⟩ := hinv
  have hsw : goodWords (splitOnSpace s) := ⟨splitOnSpace_ne_nil s, hs⟩
  have hjs : joinSpace (splitOnSpace s) = s := joinSpace_splitOnSpace s
  have h2ne : st.2 ≠ [] := by
    intro hh
    rw [hh] at hlen
    simp at hlen
  rcases h2 with hnil | ⟨ws, hws, hform⟩
  · exact absurd hnil h2ne
  have htrim : trimChars st.2 = joinSpace ws := by
    rcases hform with hf | hf
    · rw [hf, trimChars_joinSpace hws]
    · rw [hf, trimChars_space_joinSpace hws]
  have hw50 : goodWords (w50 ws) := goodWords_w50 hws
  have hlw : lastWords 50 st.2 = joinSpace (w50 ws) ∨
      (lastWords 50 st.2 = ' ' :: joinSpace ws ∧ w50 ws = ws) := by
    rcases hform with hf | hf
    · left
      rw [hf, lastWords_joinSpace hws]
    · rw [hf, lastWords_space_joinSpace hws]
      by_cases hl : ws.length ≤ 49
      · right
        rw [if_pos hl]
        refine ⟨rfl, ?_⟩
        rw [w50, show ws.length - 50 = 0 by omega, List.drop_zero]
      · left
        rw [if_neg hl]
  refine ⟨?_, ?_, ?_, ?_, ?_⟩
  · intro hh
    exfalso
    rcases List.append_eq_nil.1 hh with ⟨-, hh2⟩
    simp at hh2
  · right
    rcases hlw with hL | ⟨hL, hww⟩
    · exact ⟨w50 ws ++ splitOnSpace s, goodWords_append hw50 hsw, Or.inl (by
        rw [hL, joinSpace_append _ _ hw50.1 hsw.1, hjs])⟩
    · exact ⟨ws ++ splitOnSpace s, goodWords_append hws hsw, Or.inr (by
        rw [hL, joinSpace_append _ _ hws.1 hsw.1, hjs]; simp)⟩
  · intro c hc
    rcases List.mem_append.1 hc with hc | hc
    · exact h3 c hc
    · simp at hc
      subst hc
      rw [htrim]
      exact joinSpace_ne_nil hws
  · exact overlap_append st.1 (trimChars st.2) h4 h5
  · intro lc hlc
    rw [List.getLast?_concat] at hlc
    have hlceq : lc = trimChars st.2 := by
      simpa using hlc.symm
    rw [hlceq, htrim, lastWords_joinSpace hws]
    rcases hlw with hL | ⟨hL, hww⟩
    · rw [hL, show joinSpace (w50 ws) ++ ' ' :: s =
          joinSpace (w50 ws ++ splitOnSpace s) by
        rw [joinSpace_append _ _ hw50.1 hsw.1, hjs],
        trimChars_joinSpace (goodWords_append hw50 hsw),
        joinSpace_append _ _ hw50.1 hsw.1]
      exact List.prefix_append _ _
    · rw [hL, show (' ' :: joinSpace ws) ++ ' ' :: s =
          ' ' :: joinSpace (ws ++ splitOnSpace s) by
        rw [joinSpace_append _ _ hws.1 hsw.1, hjs]; simp,
        trimChars_space_joinSpace (goodWords_append hws hsw),
        joinSpace_append _ _ hws.1 hsw.1, hww]
      exact List.prefix_append _ _

theorem sentenceStep_inv (st : List (List Char) × List Char) (s : List Char)
    (hinv : ChunkInv st) (hs : goodPiece s) :
    ChunkInv (sentenceStep 512 100 50 st s) := by
  simp only [sentenceStep]
  by_cases hc1 : 512 < (st.2 ++ ' ' :: s).length
  · rw [if_pos hc1]
    by_cases hc2 : 100 ≤ st.2.length
    · rw [if_pos hc2]
      exact ChunkInv_push st s hinv hs hc2
    · rw [if_neg hc2]
      exact ChunkInv_append st s hinv hs
  · rw [if_neg hc1]
    exact ChunkInv_append st s hinv hs

theorem foldl_sentenceStep_inv (ss : List (List Char))
    (st : List (List Char) × List Char) (hinv : ChunkInv st)
    (hss : ∀ s ∈ ss, goodPiece s) :
    ChunkInv (ss.foldl (sentenceStep 512 100 50) st) := by
  induction ss generalizing st with
  | nil => simpa using hinv
  | cons s rest ih =>
    rw [List.foldl_cons]
    exact ih _ (sentenceStep_inv st s hinv (hss s (by simp)))
      (fun x hx => hss x (by simp [hx]))

theorem filter_pos_eq_self (l : List (List Char)) (h : ∀ c ∈ l, c ≠ []) :
    l.filter (fun c => 0 < c.length) = l := by
  apply List.filter_eq_self.2
  intro c hc
  simp only [decide_eq_true_eq, List.length_pos]
  exact h c hc

/-- The overlap property at the `List Char` level. -/
theorem chunkTextL_overlap (text : List Char)
    (hlen : 512 < (trimChars (collapseNL (collapseWS text))).length)
    (hgood : ∀ s ∈ splitSentences (trimChars (collapseNL (collapseWS text))),
      goodPiece s)
    (i : Nat) (hi : i + 1 < (chunkTextL text 512 50 100).length) :
    lastWords 50 ((chunkTextL text 512 50 100).getD i []) <+:
      (chunkTextL text 512 50 100).getD (i + 1) [] := by
  have hinv0 : ChunkInv ([], []) :=
    ⟨fun _ => rfl, Or.inl rfl, by simp, by simp, by simp⟩
  have hinv := foldl_sentenceStep_inv _ ([], []) hinv0 hgood
  obtain ⟨h1, h2, h3, h4, h5⟩ := hinv
  rw [chunkTextL_long text hlen] at hi ⊢
  by_cases hpush : 100 ≤ (trimChars ((splitSentences
      (trimChars (collapseNL (collapseWS text)))).foldl
      (sentenceStep 512 100 50) ([], [])).2).length
  · rw [if_pos hpush] at hi ⊢
    have hall : ∀ c ∈ ((splitSentences
        (trimChars (collapseNL (collapseWS text)))).foldl
        (sentenceStep 512 100 50) ([], [])).1 ++
        [trimChars ((splitSentences
          (trimChars (collapseNL (collapseWS text)))).foldl
          (sentenceStep 512 100 50) ([], [])).2], c ≠ [] := by
      intro c hc
      rcases List.mem_append.1 hc with hc | hc
      · exact h3 c hc
      · simp at hc
        subst hc
        intro hh
        rw [hh] at hpush
        simp at hpush
    rw [filter_pos_eq_self _ hall] at hi ⊢
    exact overlap_append _ _ h4 h5 i hi
  · rw [if_neg hpush] at hi ⊢
    rw [filter_pos_eq_self _ h3] at hi ⊢
    exact h4 i hi

theorem getD_map_mk (l : List (List Char)) (i : Nat) (h : i < l.length) :
    ((l.map (fun cs => String.mk cs)).getD i "").data = l.getD i [] := by
  rw [List.getD_eq_getElem?_getD, List.getD_eq_getElem?_getD,
    List.getElem?_map, List.getElem?_eq_getElem h]
  simp

/-- **C4, amended**: on the multi-chunk path with default options, the last
50 words of chunk `i` are a string prefix of chunk `i+1` *provided* every
sentence piece of the normalized text splits on spaces into non-empty,
whitespace-free words (no empty piece, none starting or ending with a
space).  Degenerate punctuation patterns such as `". . "` or `" .. "`
violate the proviso and can shift the seeded window by one word or leave a
double space, breaking the prefix relation. -/
theorem claim_C4_overlap_amended (text : String)
    (hlen : 512 < (normalizeText text).length)
    (hgood : ∀ s ∈ splitSentences (normalizeText text).data,
      ∀ w ∈ splitOnSpace s, w ≠ [] ∧ ∀ c ∈ w, isWS c = false)
    (i : Nat) (hi : i + 1 < (chunkText text ⟨none, none, none⟩).length) :
    lastWords 50 ((chunkText text ⟨none, none, none⟩).getD i "").data <+:
      ((chunkText text ⟨none, none, none⟩).getD (i + 1) "").data := by
  have hlen' : 512 < (trimChars (collapseNL (collapseWS text.data))).length :=
    hlen
  have hgood' : ∀ s ∈ splitSentences
      (trimChars (collapseNL (collapseWS text.data))), goodPiece s := hgood
  have hout : chunkText text ⟨none, none, none⟩ =
      (chunkTextL text.data 512 50 100).map (fun cs => String.mk cs) := rfl
  rw [hout] at hi ⊢
  rw [List.length_map] at hi
  rw [getD_map_mk _ i (by omega), getD_map_mk _ (i + 1) hi]
  exact chunkTextL_overlap text.data hlen' hgood' i hi

/-- `"ab ab … ab" (60 words) ++ ". . " ++ 'c'*400`: the empty sentence
piece produced by `". . "` leaves a trailing space in the buffer, so the
seeded overlap window starts one word late and carries a double space. -/
def brokenOverlapInput : String :=
  String.intercalate " " (List.replicate 60 "ab") ++ ". . " ++
    String.mk (List.replicate 400 'c')

set_option maxRecDepth 1000000 in
/-- **C4, counterexample**: on `brokenOverlapInput` the multi-chunk path
produces two chunks whose 50-word overlap fails: the last 50 words of chunk
0 are not a prefix of chunk 1. -/
theorem claim_C4_counterexample :
    512 < (normalizeText brokenOverlapInput).length ∧
    (chunkText brokenOverlapInput ⟨none, none, none⟩).length = 2 ∧
    ¬(lastWords 50
        ((chunkText brokenOverlapInput ⟨none, none, none⟩).getD 0 "").data <+:
      ((chunkText brokenOverlapInput ⟨none, none, none⟩).getD 1 "").data) := by
  refine ⟨by decide, by decide, by decide⟩

/-- Three sentences of 43 words each (646 characters). -/
def manySentencesInput : String :=
  String.intercalate ". "
    (List.replicate 3 (String.intercalate " " (List.replicate 43 "word")))

set_option maxRecDepth 1000000 in
/-- Witness for C4 (amended) at a concrete multi-chunk input. -/
theorem claim_C4_witness :
    lastWords 50
        ((chunkText manySentencesInput ⟨none, none, none⟩).getD 0 "").data <+:
      ((chunkText manySentencesInput ⟨none, none, none⟩).getD 1 "").data :=
  claim_C4_overlap_amended manySentencesInput (by decide) (by decide) 0
    (by decide)

/-! ## The Embedder (`generateEmbedding`, `generateEmbeddings`) and C8 -/

/-- Sequential effectful map over `Except` (the elaborated form of both the
`for` loop plus `Promise.all` in `generateEmbeddings` and of a one-at-a-time
mapping: the first failure aborts). -/
def mapE {α β : Type} (f : α → Except String β) : List α → Except String (List β)
  | [] => .ok []
  | x :: rest =>
    match f x with
    | .error e => .error e
    | .ok y =>
      match mapE f rest with
      | .error e => .error e
      | .ok ys => .ok (y :: ys)

/-- `generateEmbedding`: one `pipe(text, {pooling: 'mean', normalize: true})`
call; any failure is caught and re-thrown as
`'Failed to generate embedding'`.  The pretrained model is the oracle
`pipe`. -/
def generateEmbedding (pipe : String → Except String (List ℚ))
    (text : String) : Except String (List ℚ) :=
  match pipe text with
  | .ok v => .ok v
  | .error _ => .error "Failed to generate embedding"

/-- The `for (let i = 0; i < texts.length; i += batchSize)` slicing with
`batchSize = 10`. -/
def batchList {α : Type} : List α → List (List α)
  | [] => []
  | x :: rest => ((x :: rest).take 10) :: batchList ((x :: rest).drop 10)
termination_by l => l.length
decreasing_by
  simp [List.length_drop]
  omega

/-- `generateEmbeddings`: process the texts in sub-batches of 10, flatten
the results in order; any failure is caught and re-thrown as
`'Failed to generate embeddings'`. -/
def generateEmbeddings (pipe : String → Except String (List ℚ))
    (texts : List String) : Except String (List (List ℚ)) :=
  match mapE (fun batch => mapE pipe batch) (batchList texts) with
  | .ok batches => .ok batches.flatten
  | .error _ => .error "Failed to generate embeddings"

theorem mapE_append {α β : Type} (f : α → Except String β)
    (l₁ l₂ : List α) :
    mapE f (l₁ ++ l₂) =
      match mapE f l₁ with
      | .error e => .error e
      | .ok a =>
        match mapE f l₂ with
        | .error e => .error e
        | .ok b => .ok (a ++ b) := by
  induction l₁ with
  | nil =>
    simp only [List.nil_append, mapE]
    cases mapE f l₂ <;> rfl
  | cons x rest ih =>
    simp only [List.cons_append, mapE, List.append_eq]
    cases f x with
    | error e => rfl
    | ok y =>
      rw [ih]
      cases mapE f rest with
      | error e => rfl
      | ok ys =>
        cases mapE f l₂ with
        | error e => rfl
        | ok b => rfl

/-- One-step unfolding of `mapE` on a cons cell, stated as a plain match. -/
theorem mapE_cons {α β : Type} (f : α → Except String β) (x : α) (l : List α) :
    mapE f (x :: l) =
      match f x with
      | .error e => .error e
      | .ok y =>
        match mapE f l with
        | .error e => .error e
        | .ok ys => .ok (y :: ys) := by
  cases hx : f x with
  | error e => simp [mapE, hx]
  | ok y =>
    cases hl : mapE f l with
    | error e => simp [mapE, hx, hl]
    | ok ys => simp [mapE, hx, hl]

/-- Batching is invisible: the batched scan equals the unbatched one up to
flattening. -/
theorem mapE_batched (pipe : String → Except String (List ℚ))
    (texts : List String) :
    mapE pipe texts =
      match mapE (fun batch => mapE pipe batch) (batchList texts) with
      | .error e => .error e
      | .ok batches => .ok batches.flatten := by
  induction texts using batchList.induct with
  | case1 => simp [mapE, batchList]
  | case2 x rest ih =>
    have hsplit : x :: rest = (x :: rest).take 10 ++ (x :: rest).drop 10 := by
      rw [List.take_append_drop]
    rw [hsplit, mapE_append, ← hsplit, ih, batchList]
    cases hA : mapE pipe ((x :: rest).take 10) with
    | error e => simp only [mapE_cons, hA]
    | ok y =>
      cases hB : mapE (fun batch => mapE pipe batch)
          (batchList ((x :: rest).drop 10)) with
      | error e => simp only [mapE_cons, hA, hB]
      | ok ys => simp only [mapE_cons, hA, hB, List.flatten_cons]

/-- `generateEmbeddings` succeeds with `vs` exactly when the plain unbatched
scan of `pipe` over the texts does. -/
theorem generateEmbeddings_ok_iff (pipe : String → Except String (List ℚ))
    (texts : List String) (vs : List (List ℚ)) :
    generateEmbeddings pipe texts = .ok vs ↔ mapE pipe texts = .ok vs := by
  unfold generateEmbeddings
  rw [mapE_batched pipe texts]
  cases hb : mapE (fun batch => mapE pipe batch) (batchList texts) <;> simp

/-- An `Except` value is an error exactly when it is not a success. -/
theorem except_error_iff_not_ok {β : Type} (x : Except String β) :
    (∃ e, x = .error e) ↔ ¬∃ v, x = .ok v := by
  cases x <;> simp

/-- Two effectful functions agreeing on successes give scans agreeing on
successes. -/
theorem mapE_ok_congr {α β : Type} (f g : α → Except String β)
    (hfg : ∀ x v, f x = .ok v ↔ g x = .ok v) (l : List α) :
    ∀ vs, mapE f l = .ok vs ↔ mapE g l = .ok vs := by
  induction l with
  | nil => intro vs; simp [mapE]
  | cons x t ih =>
    intro vs
    rw [mapE_cons, mapE_cons]
    cases hfx : f x with
    | error e =>
      cases hgx : g x with
      | error e2 => simp
      | ok y =>
        have hc := (hfg x y).2 hgx
        rw [hfx] at hc
        simp at hc
    | ok y =>
      cases hgx : g x with
      | error e =>
        have hc := (hfg x y).1 hfx
        rw [hgx] at hc
        simp at hc
      | ok y2 =>
        have hc := (hfg x y).1 hfx
        rw [hgx] at hc
        injection hc with hy
        subst hy
        cases hmf : mapE f t with
        | error e =>
          cases hmg : mapE g t with
          | error e2 => simp
          | ok ys =>
            have hc2 := (ih ys).2 hmg
            rw [hmf] at hc2
            simp at hc2
        | ok ys =>
          have hc2 := (ih ys).1 hmf
          cases hmg : mapE g t with
          | error e =>
            rw [hmg] at hc2
            simp at hc2
          | ok ys2 =>
            rw [hmg] at hc2
            injection hc2 with hys
            subst hys
            simp

/-- A successful scan has one output per input, in order. -/
theorem mapE_ok_spec {α β : Type} (f : α → Except String β) (l : List α) :
    ∀ vs, mapE f l = .ok vs →
      vs.length = l.length ∧
      ∀ i (hi : i < l.length), ∃ hv : i < vs.length,
        f (l.get ⟨i, hi⟩) = .ok (vs.get ⟨i, hv⟩) := by
  induction l with
  | nil =>
    intro vs h
    simp [mapE] at h
    subst h
    exact ⟨rfl, fun i hi => absurd hi (Nat.not_lt_zero i)⟩
  | cons x t ih =>
    intro vs h
    rw [mapE_cons] at h
    cases hfx : f x with
    | error e => simp [hfx] at h
    | ok y =>
      simp only [hfx] at h
      cases hmt : mapE f t with
      | error e => simp [hmt] at h
      | ok ys =>
        simp only [hmt] at h
        injection h with h2
        subst h2
        obtain ⟨hl, hidx⟩ := ih ys hmt
        refine ⟨by simp [hl], ?_⟩
        intro i hi
        cases i with
        | zero => exact ⟨Nat.succ_pos ys.length, hfx⟩
        | succ j =>
          obtain ⟨hv, hfe⟩ := hidx j (Nat.lt_of_succ_lt_succ hi)
          exact ⟨Nat.succ_lt_succ hv, hfe⟩

/-- **C8**: `generateEmbeddings texts` returns exactly one embedding per
input text, in input order, regardless of the internal splitting into
sub-batches of 10: whenever it succeeds with `vs`, mapping
`generateEmbedding` one text at a time succeeds with the same `vs`,
`vs` has one entry per text and entry `i` is the pipeline output on text
`i`; and it fails exactly when mapping `generateEmbedding` one at a time
fails. -/
theorem claim_C8_generateEmbeddings (pipe : String → Except String (List ℚ))
    (texts : List String) :
    (∀ vs, generateEmbeddings pipe texts = .ok vs →
        mapE (generateEmbedding pipe) texts = .ok vs ∧
        vs.length = texts.length ∧
        ∀ i (hi : i < texts.length), ∃ hv : i < vs.length,
          pipe (texts.get ⟨i, hi⟩) = .ok (vs.get ⟨i, hv⟩)) ∧
    ((∃ e, generateEmbeddings pipe texts = .error e) ↔
      ∃ e, mapE (generateEmbedding pipe) texts = .error e) := by
  have hfg : ∀ x v, pipe x = Except.ok v ↔
      generateEmbedding pipe x = Except.ok v := by
    intro x v
    unfold generateEmbedding
    cases pipe x <;> simp
  constructor
  · intro vs h
    have hm : mapE pipe texts = .ok vs :=
      (generateEmbeddings_ok_iff pipe texts vs).1 h
    exact ⟨(mapE_ok_congr pipe (generateEmbedding pipe) hfg texts vs).1 hm,
      (mapE_ok_spec pipe texts vs hm).1, (mapE_ok_spec pipe texts vs hm).2⟩
  · rw [except_error_iff_not_ok, except_error_iff_not_ok]
    apply not_congr
    apply exists_congr
    intro vs
    rw [generateEmbeddings_ok_iff]
    exact mapE_ok_congr pipe (generateEmbedding pipe) hfg texts vs

/-- C8 at a concrete input: a constant pipeline over one text. -/
theorem claim_C8_witness :
    mapE (generateEmbedding (fun _ => Except.ok ([1] : List ℚ))) ["a"] =
      Except.ok [[1]] :=
  ((claim_C8_generateEmbeddings (fun _ => Except.ok [1]) ["a"]).1 [[1]]
    (by simp [generateEmbeddings, batchList, mapE])).1

/-! ## `processDocumentToChunks` (`embeddingService.ts` 708–738)

The template literal renders the chunk index in decimal (`Nat.repr`);
its injectivity makes the generated chunk ids pairwise distinct. -/


def digitVal (c : Char) : Nat := c.toNat - 48

def valDigits (cs : List Char) : Nat :=
  cs.foldl (fun a c => 10 * a + digitVal c) 0

theorem valDigits_append (l : List Char) (c : Char) :
    valDigits (l ++ [c]) = 10 * valDigits l + digitVal c := by
  simp [valDigits, List.foldl_append]

theorem toDigitsCore_append (f : Nat) :
    ∀ (n : Nat) (l : List Char),
      Nat.toDigitsCore 10 f n l = Nat.toDigitsCore 10 f n [] ++ l := by
  induction f with
  | zero => intro n l; simp [Nat.toDigitsCore]
  | succ f ih =>
    intro n l
    simp only [Nat.toDigitsCore]
    by_cases h : n / 10 = 0
    · simp [h]
    · simp only [if_neg h]
      rw [ih (n / 10) (Nat.digitChar (n % 10) :: l),
          ih (n / 10) [Nat.digitChar (n % 10)]]
      simp

theorem toDigitsCore_canon (n : Nat) :
    ∀ (f : Nat) (l : List Char), n < f →
      Nat.toDigitsCore 10 f n l = Nat.toDigitsCore 10 (n + 1) n l := by
  induction n using Nat.strong_induction_on with
  | _ n ih =>
    intro f l hf
    cases f with
    | zero => omega
    | succ f' =>
      simp only [Nat.toDigitsCore]
      by_cases h : n / 10 = 0
      · simp [h]
      · simp only [if_neg h]
        have hn0 : 0 < n := by omega
        have hn10 : n / 10 < n := Nat.div_lt_self hn0 (by omega)
        rw [ih (n / 10) hn10 f' _ (by omega),
            ih (n / 10) hn10 n _ (by omega)]

theorem toDigitsCore_fuel (f g n : Nat) (l : List Char) (hf : n < f)
    (hg : n < g) :
    Nat.toDigitsCore 10 f n l = Nat.toDigitsCore 10 g n l := by
  rw [toDigitsCore_canon n f l hf, toDigitsCore_canon n g l hg]

theorem digitVal_digitChar (m : Nat) (h : m < 10) :
    digitVal (Nat.digitChar m) = m := by
  interval_cases m <;> decide

theorem valDigits_toDigits (n : Nat) :
    valDigits (Nat.toDigits 10 n) = n := by
  induction n using Nat.strong_induction_on with
  | _ n ih =>
    unfold Nat.toDigits
    simp only [Nat.toDigitsCore]
    by_cases h : n / 10 = 0
    · simp only [if_pos h]
      have hn : n < 10 := by omega
      have hmod : n % 10 = n := by omega
      simp [valDigits, hmod, digitVal_digitChar n hn]
    · simp only [if_neg h]
      have hn0 : 0 < n := by omega
      have hdiv : n / 10 < n := Nat.div_lt_self hn0 (by omega)
      rw [toDigitsCore_fuel n (n / 10 + 1) (n / 10) _ hdiv (Nat.lt_succ_self _)]
      rw [toDigitsCore_append (n / 10 + 1) (n / 10) [Nat.digitChar (n % 10)]]
      rw [show Nat.toDigitsCore 10 (n / 10 + 1) (n / 10) [] =
            Nat.toDigits 10 (n / 10) from rfl]
      rw [valDigits_append, ih (n / 10) hdiv,
          digitVal_digitChar (n % 10) (by omega)]
      omega

theorem natRepr_data_inj (m n : Nat)
    (h : (Nat.repr m).data = (Nat.repr n).data) : m = n := by
  have hd : Nat.toDigits 10 m = Nat.toDigits 10 n := h
  have h2 := congrArg valDigits hd
  rwa [valDigits_toDigits, valDigits_toDigits] at h2


theorem addChunksMem_chunks (cs : List DocumentChunk) :
    ∀ (m : VectorMem), (addChunksMem m cs).chunks =
      cs.foldl (fun r c => mapSet r c.id c) m.chunks := by
  induction cs with
  | nil => intro m; rfl
  | cons c t ih =>
    intro m
    show (addChunksMem (insertChunk m c) t).chunks = _
    rw [ih (insertChunk m c)]
    rfl

theorem addChunksMem_initialized (cs : List DocumentChunk) :
    ∀ (m : VectorMem), (addChunksMem m cs).initialized = m.initialized := by
  induction cs with
  | nil => intro m; rfl
  | cons c t ih =>
    intro m
    show (addChunksMem (insertChunk m c) t).initialized = _
    rw [ih (insertChunk m c)]
    rfl

theorem rowsFold_get_not_mem (cs : List DocumentChunk) :
    ∀ (r : List (String × DocumentChunk)) (k : String),
      k ∉ cs.map DocumentChunk.id →
      mapGet (cs.foldl (fun r c => mapSet r c.id c) r) k = mapGet r k := by
  induction cs with
  | nil => intro r k _; rfl
  | cons c t ih =>
    intro r k hk
    simp only [List.map_cons, List.mem_cons, not_or] at hk
    show mapGet (t.foldl (fun r c => mapSet r c.id c) (mapSet r c.id c)) k = _
    rw [ih (mapSet r c.id c) k hk.2, mapGet_mapSet]
    exact if_neg (fun hh => hk.1 hh.symm)

theorem rowsFold_get_mem (cs : List DocumentChunk) :
    ∀ (r : List (String × DocumentChunk)) (c : DocumentChunk),
      (cs.map DocumentChunk.id).Nodup → c ∈ cs →
      mapGet (cs.foldl (fun r c => mapSet r c.id c) r) c.id = some c := by
  induction cs with
  | nil => intro r c _ hc; cases hc
  | cons c0 t ih =>
    intro r c hnd hc
    simp only [List.map_cons, List.nodup_cons] at hnd
    rcases List.mem_cons.1 hc with h | h
    · subst h
      show mapGet (t.foldl (fun r c => mapSet r c.id c) (mapSet r c.id c)) c.id
        = some c
      rw [rowsFold_get_not_mem t (mapSet r c.id c) c.id hnd.1, mapGet_mapSet]
      exact if_pos rfl
    · exact ih (mapSet r c0.id c0) c hnd.2 h

theorem rowsFold_fixpoint (cs : List DocumentChunk)
    (r : List (String × DocumentChunk))
    (h : ∀ c ∈ cs, mapGet r c.id = some c) :
    cs.foldl (fun r c => mapSet r c.id c) r = r := by
  induction cs with
  | nil => rfl
  | cons c0 t ih =>
    show t.foldl (fun r c => mapSet r c.id c) (mapSet r c0.id c0) = r
    rw [mapSet_eq_self r c0.id c0 (h c0 (List.mem_cons_self c0 t))]
    exact ih (fun c hc => h c (List.mem_cons_of_mem c0 hc))

theorem insertChunk_source_mem (m : VectorMem) (c : DocumentChunk)
    (k x : String)
    (h : ∃ S, mapGet m.sourceChunks k = some S ∧ x ∈ S) :
    ∃ S, mapGet (insertChunk m c).sourceChunks k = some S ∧ x ∈ S := by
  obtain ⟨S, hS, hx⟩ := h
  by_cases hk : c.sourceId = k
  · subst hk
    refine ⟨setAdd S c.id, ?_, (mem_setAdd S c.id x).2 (Or.inl hx)⟩
    show mapGet (mapSet m.sourceChunks c.sourceId
      (setAdd ((mapGet m.sourceChunks c.sourceId).getD []) c.id))
      c.sourceId = _
    rw [mapGet_mapSet, if_pos rfl, hS]
    rfl
  · refine ⟨S, ?_, hx⟩
    show mapGet (mapSet m.sourceChunks c.sourceId
      (setAdd ((mapGet m.sourceChunks c.sourceId).getD []) c.id)) k = _
    rw [mapGet_mapSet, if_neg hk]
    exact hS

theorem addChunksMem_source_mem_preserved (cs : List DocumentChunk) :
    ∀ (m : VectorMem) (k x : String),
      (∃ S, mapGet m.sourceChunks k = some S ∧ x ∈ S) →
      ∃ S, mapGet (addChunksMem m cs).sourceChunks k = some S ∧ x ∈ S := by
  induction cs with
  | nil => intro m k x h; exact h
  | cons c t ih =>
    intro m k x h
    exact ih (insertChunk m c) k x (insertChunk_source_mem m c k x h)

theorem addChunksMem_source_mem (cs : List DocumentChunk) :
    ∀ (m : VectorMem) (c : DocumentChunk), c ∈ cs →
      ∃ S, mapGet (addChunksMem m cs).sourceChunks c.sourceId = some S ∧
        c.id ∈ S := by
  induction cs with
  | nil => intro m c hc; cases hc
  | cons c0 t ih =>
    intro m c hc
    rcases List.mem_cons.1 hc with h | h
    · subst h
      apply addChunksMem_source_mem_preserved t (insertChunk m c)
      refine ⟨setAdd ((mapGet m.sourceChunks c.sourceId).getD []) c.id, ?_,
        (mem_setAdd _ c.id c.id).2 (Or.inr rfl)⟩
      show mapGet (mapSet m.sourceChunks c.sourceId
        (setAdd ((mapGet m.sourceChunks c.sourceId).getD []) c.id))
        c.sourceId = _
      rw [mapGet_mapSet, if_pos rfl]
    · exact ih (insertChunk m c0) c h

theorem insertChunk_fixpoint (m : VectorMem) (c : DocumentChunk)
    (h1 : mapGet m.chunks c.id = some c)
    (h2 : ∃ S, mapGet m.sourceChunks c.sourceId = some S ∧ c.id ∈ S) :
    insertChunk m c = m := by
  obtain ⟨S, hS, hx⟩ := h2
  obtain ⟨ch, sc, init⟩ := m
  dsimp only at h1 hS
  simp only [insertChunk, VectorMem.mk.injEq]
  refine ⟨mapSet_eq_self ch c.id c h1, ?_, trivial⟩
  dsimp only
  rw [hS]
  simp only [Option.getD_some]
  rw [setAdd_eq_self_of_mem S c.id hx]
  exact mapSet_eq_self sc c.sourceId S hS

theorem addChunksMem_fixpoint (cs : List DocumentChunk) (M : VectorMem)
    (h : ∀ c ∈ cs, mapGet M.chunks c.id = some c ∧
      ∃ S, mapGet M.sourceChunks c.sourceId = some S ∧ c.id ∈ S) :
    addChunksMem M cs = M := by
  induction cs with
  | nil => rfl
  | cons c t ih =>
    have hc := h c (List.mem_cons_self c t)
    have hfix : insertChunk M c = M := insertChunk_fixpoint M c hc.1 hc.2
    show addChunksMem (insertChunk M c) t = M
    rw [hfix]
    exact ih (fun c2 hc2 => h c2 (List.mem_cons_of_mem c hc2))

theorem addChunksMem_idem (m : VectorMem) (cs : List DocumentChunk)
    (hnd : (cs.map DocumentChunk.id).Nodup) :
    addChunksMem (addChunksMem m cs) cs = addChunksMem m cs := by
  apply addChunksMem_fixpoint
  intro c hc
  constructor
  · rw [addChunksMem_chunks]
    exact rowsFold_get_mem cs m.chunks c hnd hc
  · exact addChunksMem_source_mem cs m c hc

theorem saveToDB_idem (db : DB) (cs : List DocumentChunk)
    (hnd : (cs.map DocumentChunk.id).Nodup) :
    saveToDB (saveToDB db cs) cs = saveToDB db cs := by
  obtain ⟨te, fl, rows⟩ := db
  cases te with
  | false => simp [saveToDB]
  | true =>
    cases fl with
    | true => simp [saveToDB]
    | false =>
      simp only [saveToDB]
      norm_num
      exact rowsFold_fixpoint cs _
        (fun c hc => rowsFold_get_mem cs rows c hnd hc)

theorem initStore_initialized (s : Sys) :
    (initStore s).mem.initialized = true := by
  unfold initStore
  by_cases h : s.mem.initialized
  · simp [h]
  · simp [h]

theorem initStore_of_initialized (s : Sys) (h : s.mem.initialized = true) :
    initStore s = s := by
  unfold initStore
  simp [h]

theorem addChunks_idem (s : Sys) (cs : List DocumentChunk)
    (hnd : (cs.map DocumentChunk.id).Nodup) :
    addChunks (addChunks s cs) cs = addChunks s cs := by
  have hinit : (addChunksMem (initStore s).mem cs).initialized = true := by
    rw [addChunksMem_initialized, initStore_initialized]
  have hstore : initStore ⟨addChunksMem (initStore s).mem cs,
      saveToDB (initStore s).db cs⟩ =
      ⟨addChunksMem (initStore s).mem cs, saveToDB (initStore s).db cs⟩ :=
    initStore_of_initialized _ hinit
  calc addChunks (addChunks s cs) cs
      = ⟨addChunksMem (addChunksMem (initStore s).mem cs) cs,
          saveToDB (saveToDB (initStore s).db cs) cs⟩ := by
        simp only [addChunks]
        rw [hstore]
    _ = ⟨addChunksMem (initStore s).mem cs, saveToDB (initStore s).db cs⟩ := by
        rw [addChunksMem_idem _ _ hnd, saveToDB_idem _ _ hnd]
    _ = addChunks s cs := by simp only [addChunks]

/-- `processDocumentToChunks`: chunk the content, embed all chunks, then
build one `DocumentChunk` per text chunk with
`id = sourceId + "-chunk-" + index`, the embedding at the same index, and
`metadata = {chunkIndex, totalChunks}`. -/
def processDocumentToChunks (pipe : String → Except String (List ℚ))
    (sourceId sourceName content : String) (options : ChunkOptions) :
    Except String (List DocumentChunk) :=
  let textChunks := chunkText content options
  match generateEmbeddings pipe textChunks with
  | .error e => .error e
  | .ok embeddings =>
      .ok (textChunks.mapIdx fun index text =>
        { id := sourceId ++ "-chunk-" ++ Nat.repr index
          sourceId := sourceId
          sourceName := sourceName
          content := text
          embedding := embeddings[index]?
          metadata := some ⟨none, index, textChunks.length⟩ })

/-- The ids generated by `processDocumentToChunks` are pairwise distinct. -/
theorem processDocument_ids_nodup (sourceId : String)
    (texts : List String) (f : Nat → String → DocumentChunk)
    (hf : ∀ i t, (f i t).id = sourceId ++ "-chunk-" ++ Nat.repr i) :
    ((texts.mapIdx f).map DocumentChunk.id).Nodup := by
  rw [List.nodup_iff_injective_get]
  intro a b hab
  obtain ⟨i, hi⟩ := a
  obtain ⟨j, hj⟩ := b
  simp only [List.get_eq_getElem, List.getElem_map, List.getElem_mapIdx] at hab
  rw [hf, hf] at hab
  have hdata := congrArg String.data hab
  simp only [String.data_append] at hdata
  have h1 := List.append_cancel_left hdata
  exact Fin.ext (natRepr_data_inj i j h1)

/-- **C5**: `processDocumentToChunks` (a pure function of its arguments,
hence deterministic) assigns chunk ids of the form
`sourceId ++ "-chunk-" ++ index` from the chunk's position (with
`sourceId` stored on every chunk and one chunk per text chunk), and
adding its output to any store twice leaves the same state as adding it
once — re-adding a chunk with the same id overwrites it. -/
theorem claim_C5_processDocument (pipe : String → Except String (List ℚ))
    (sourceId sourceName content : String) (options : ChunkOptions)
    (s : Sys) (cs : List DocumentChunk)
    (h : processDocumentToChunks pipe sourceId sourceName content options
      = .ok cs) :
    (∀ i (hi : i < cs.length),
        (cs.get ⟨i, hi⟩).id = sourceId ++ "-chunk-" ++ Nat.repr i ∧
        (cs.get ⟨i, hi⟩).sourceId = sourceId) ∧
    cs.length = (chunkText content options).length ∧
    addChunks (addChunks s cs) cs = addChunks s cs := by
  simp only [processDocumentToChunks] at h
  cases hge : generateEmbeddings pipe (chunkText content options) with
  | error e => simp [hge] at h
  | ok embeddings =>
    simp only [hge] at h
    injection h with hcs
    subst hcs
    refine ⟨?_, by simp, ?_⟩
    · intro i hi
      simp only [List.get_eq_getElem, List.getElem_mapIdx]
      constructor <;> trivial
    · apply addChunks_idem
      apply processDocument_ids_nodup sourceId
      intro i t
      rfl

/-- C5 at a concrete input: one chunk, added twice. -/
theorem claim_C5_witness :
    addChunks (addChunks (⟨⟨[], [], true⟩, ⟨true, false, []⟩⟩ : Sys)
        [⟨"s-chunk-0", "s", "n", "hi", some [1], some ⟨none, 0, 1⟩⟩])
      [⟨"s-chunk-0", "s", "n", "hi", some [1], some ⟨none, 0, 1⟩⟩] =
    addChunks (⟨⟨[], [], true⟩, ⟨true, false, []⟩⟩ : Sys)
      [⟨"s-chunk-0", "s", "n", "hi", some [1], some ⟨none, 0, 1⟩⟩] :=
  (claim_C5_processDocument (fun _ => Except.ok [1]) "s" "n" "hi"
    ⟨none, none, none⟩ ⟨⟨[], [], true⟩, ⟨true, false, []⟩⟩
    [⟨"s-chunk-0", "s", "n", "hi", some [1], some ⟨none, 0, 1⟩⟩]
    (by
      have h1 : chunkText "hi" ⟨none, none, none⟩ = ["hi"] := by decide
      have h2 : generateEmbeddings (fun _ => Except.ok ([1] : List ℚ)) ["hi"]
          = .ok [[1]] := by simp [generateEmbeddings, batchList, mapE]
      simp [processDocumentToChunks, h1, h2]
      rfl)).2.2

/-! ## `removeChunksBySourceId` (vectorStore.ts 58–74) -/

theorem mapGet_mem {α : Type} (m : List (String × α)) (k : String) (v : α)
    (h : mapGet m k = some v) : (k, v) ∈ m := by
  induction m with
  | nil => simp [mapGet] at h
  | cons p rest ih =>
    obtain ⟨k₀, v₀⟩ := p
    by_cases hk : k₀ = k
    · subst hk
      simp only [mapGet, if_pos rfl] at h
      injection h with h
      subst h
      exact List.mem_cons_self _ _
    · simp only [mapGet, if_neg hk] at h
      exact List.mem_cons_of_mem _ (ih h)

theorem mapGet_of_mem {α : Type} (m : List (String × α))
    (hnd : (mapKeys m).Nodup) (k : String) (v : α) (hm : (k, v) ∈ m) :
    mapGet m k = some v := by
  induction m with
  | nil => cases hm
  | cons p rest ih =>
    obtain ⟨k₀, v₀⟩ := p
    simp only [mapKeys, List.map_cons, List.nodup_cons] at hnd
    rcases List.mem_cons.1 hm with h | h
    · injection h with h1 h2
      subst h1
      subst h2
      simp [mapGet]
    · by_cases hk : k₀ = k
      · subst hk
        exact absurd (List.mem_map_of_mem (·.1) h) hnd.1
      · simp only [mapGet, if_neg hk]
        exact ih hnd.2 h

theorem mapGet_eq_none_iff {α : Type} (m : List (String × α)) (k : String) :
    mapGet m k = none ↔ k ∉ mapKeys m := by
  rw [← mapGet_isSome_iff_mem_keys]
  cases mapGet m k <;> simp

theorem mapDelete_length_of_mem {α : Type} (m : List (String × α))
    (k : String) (v : α) (h : mapGet m k = some v) :
    (mapDelete m k).length + 1 = m.length := by
  induction m with
  | nil => simp [mapGet] at h
  | cons p rest ih =>
    obtain ⟨k₀, v₀⟩ := p
    by_cases hk : k₀ = k
    · simp [mapDelete, hk]
    · simp only [mapGet, if_neg hk] at h
      simp only [mapDelete, if_neg hk, List.length_cons]
      rw [← ih h]

theorem delFold_get (ids : List String) {α : Type} :
    ∀ (r : List (String × α)), (mapKeys r).Nodup → ∀ k,
      mapGet (ids.foldl (fun m i => mapDelete m i) r) k =
        if k ∈ ids then none else mapGet r k := by
  induction ids with
  | nil => intro r _ k; simp
  | cons i t ih =>
    intro r hnd k
    show mapGet (t.foldl (fun m i => mapDelete m i) (mapDelete r i)) k = _
    rw [ih (mapDelete r i) (nodupKeys_mapDelete r i hnd) k,
        mapGet_mapDelete r i k hnd]
    by_cases hkt : k ∈ t
    · simp [hkt]
    · by_cases hik : i = k
      · simp [hkt, hik]
      · have : k ∉ (i :: t) := by
          simp only [List.mem_cons, not_or]
          exact ⟨fun hh => hik hh.symm, hkt⟩
        simp [hkt, hik, this]

theorem nodupKeys_delFold (ids : List String) {α : Type} :
    ∀ (r : List (String × α)), (mapKeys r).Nodup →
      (mapKeys (ids.foldl (fun m i => mapDelete m i) r)).Nodup := by
  induction ids with
  | nil => intro r h; exact h
  | cons i t ih =>
    intro r hnd
    exact ih (mapDelete r i) (nodupKeys_mapDelete r i hnd)

theorem delFold_length (ids : List String) {α : Type} :
    ∀ (r : List (String × α)), (mapKeys r).Nodup → ids.Nodup →
      (∀ i ∈ ids, ∃ v, mapGet r i = some v) →
      (ids.foldl (fun m i => mapDelete m i) r).length + ids.length =
        r.length := by
  induction ids with
  | nil => intro r _ _ _; simp
  | cons i t ih =>
    intro r hnd hids hpres
    obtain ⟨v, hv⟩ := hpres i (List.mem_cons_self i t)
    simp only [List.nodup_cons] at hids
    have hpres2 : ∀ j ∈ t, ∃ w, mapGet (mapDelete r i) j = some w := by
      intro j hj
      obtain ⟨w, hw⟩ := hpres j (List.mem_cons_of_mem i hj)
      refine ⟨w, ?_⟩
      rw [mapGet_mapDelete r i j hnd,
          if_neg (fun hh => hids.1 (by rw [hh]; exact hj))]
      exact hw
    have hrec := ih (mapDelete r i) (nodupKeys_mapDelete r i hnd) hids.2 hpres2
    show (t.foldl (fun m i => mapDelete m i) (mapDelete r i)).length + _ = _
    rw [← mapDelete_length_of_mem r i v hv]
    simp only [List.length_cons]
    omega

theorem delFold_eq_filter (ids : List String) {α : Type} :
    ∀ (r : List (String × α)), (mapKeys r).Nodup →
      ids.foldl (fun m i => mapDelete m i) r =
        r.filter (fun p => decide (p.1 ∉ ids)) := by
  induction ids with
  | nil => intro r _; simp
  | cons i t ih =>
    intro r hnd
    show t.foldl (fun m i => mapDelete m i) (mapDelete r i) = _
    rw [ih (mapDelete r i) (nodupKeys_mapDelete r i hnd),
        mapDelete_eq_filter r i hnd, List.filter_filter]
    apply List.filter_congr
    intro p _
    by_cases h1 : p.1 = i
    · simp [h1]
    · by_cases h2 : p.1 ∈ t <;> simp [h1, h2]

theorem filter_map_snd {α β : Type} (r : List (α × β)) (P : α × β → Bool)
    (Q : β → Bool) (h : ∀ p ∈ r, Q p.2 = true → P p = true) :
    ((r.filter P).map (·.2)).filter Q = (r.map (·.2)).filter Q := by
  induction r with
  | nil => rfl
  | cons p t ih =>
    have hrec := ih (fun q hq => h q (List.mem_cons_of_mem p hq))
    cases hP : P p with
    | true =>
      cases hQ : Q p.2 with
      | true => simp [List.filter_cons, hP, hQ, hrec]
      | false => simp [List.filter_cons, hP, hQ, hrec]
    | false =>
      have hQ : Q p.2 = false := by
        cases hQ : Q p.2 with
        | false => rfl
        | true => exact absurd (h p (List.mem_cons_self p t) hQ) (by simp [hP])
      simp [List.filter_cons, hP, hQ, hrec]

/-- Well-formedness of the two in-memory maps (all in membership form, so
it is decidable on concrete states): duplicate-free keys, chunks stored
under their own id, duplicate-free id-sets, and the two maps mutually
consistent. -/
def WF (m : VectorMem) : Prop :=
  (mapKeys m.chunks).Nodup ∧
  (mapKeys m.sourceChunks).Nodup ∧
  (∀ p ∈ m.chunks, (p.2).id = p.1) ∧
  (∀ q ∈ m.sourceChunks, (q.2).Nodup ∧
      ∀ cid ∈ q.2, ∃ p ∈ m.chunks, p.1 = cid ∧ (p.2).sourceId = q.1) ∧
  (∀ p ∈ m.chunks, ∃ q ∈ m.sourceChunks, q.1 = (p.2).sourceId ∧ p.1 ∈ q.2)

instance (m : VectorMem) : Decidable (WF m) := by
  unfold WF
  infer_instance

/-- **C6**: on a well-formed initialized store, `removeChunksBySourceId A`
removes every chunk owned by `A` and nothing else: afterwards no chunk
with `sourceId = A` remains and `A`'s id-set is gone; every other
source's id-set and every chunk of another source are unchanged; searches
restricted to other sources return identical results; `totalChunks`
drops by exactly the number of `A`'s chunks; and the call is a no-op
when `A` owns no chunks. -/
theorem claim_C6_removeChunks (s : Sys) (A : String)
    (hinit : s.mem.initialized = true) (hwf : WF s.mem) :
    (∀ cid c, mapGet (removeChunksBySourceId s A).mem.chunks cid = some c →
        c.sourceId ≠ A) ∧
    mapGet (removeChunksBySourceId s A).mem.sourceChunks A = none ∧
    (∀ B, B ≠ A →
        mapGet (removeChunksBySourceId s A).mem.sourceChunks B =
          mapGet s.mem.sourceChunks B) ∧
    (∀ cid c, mapGet s.mem.chunks cid = some c → c.sourceId ≠ A →
        mapGet (removeChunksBySourceId s A).mem.chunks cid = some c) ∧
    (∀ (q : List ℚ) (opts : SearchOptions) (ids : List String),
        opts.sourceIds = some ids → ids ≠ [] → A ∉ ids →
        (search (removeChunksBySourceId s A) q opts).2 =
          (search s q opts).2) ∧
    ((getStats (removeChunksBySourceId s A).mem).totalChunks +
        (match mapGet s.mem.sourceChunks A with
          | some ids => ids.length
          | none => 0) =
      (getStats s.mem).totalChunks) ∧
    (mapGet s.mem.sourceChunks A = none → removeChunksBySourceId s A = s) := by
  obtain ⟨hndc, hnds, hid, hfwd, hbwd⟩ := hwf
  have hs1 : initStore s = s := initStore_of_initialized s hinit
  cases hA : mapGet s.mem.sourceChunks A with
  | none =>
    have hrem : removeChunksBySourceId s A = s := by
      simp only [removeChunksBySourceId, hs1, hA]
    have hnoA : ∀ cid c, mapGet s.mem.chunks cid = some c →
        c.sourceId ≠ A := by
      intro cid c hg hEq
      obtain ⟨qq, hq, hq1, _⟩ := hbwd (cid, c) (mapGet_mem _ _ _ hg)
      have hqget : mapGet s.mem.sourceChunks qq.1 = some qq.2 :=
        mapGet_of_mem _ hnds qq.1 qq.2 hq
      rw [hq1, hEq, hA] at hqget
      cases hqget
    refine ⟨?_, ?_, ?_, ?_, ?_, ?_, fun _ => hrem⟩
    · intro cid c hg
      rw [hrem] at hg
      exact hnoA cid c hg
    · rw [hrem]
      exact hA
    · intro B _
      rw [hrem]
    · intro cid c hg _
      rw [hrem]
      exact hg
    · intro q opts ids _ _ _
      rw [hrem]
    · simp [hrem, hA]
  | some idsA =>
    have hrem : removeChunksBySourceId s A =
        ⟨⟨idsA.foldl (fun m i => mapDelete m i) s.mem.chunks,
          mapDelete s.mem.sourceChunks A, s.mem.initialized⟩,
          deleteChunksFromDB s.db idsA⟩ := by
      simp only [removeChunksBySourceId, hs1, hA]
    have hfwdA := hfwd (A, idsA) (mapGet_mem _ _ _ hA)
    have hpres : ∀ i ∈ idsA, ∃ v, mapGet s.mem.chunks i = some v := by
      intro i hi
      obtain ⟨p, hp, hp1, _⟩ := hfwdA.2 i hi
      refine ⟨p.2, ?_⟩
      rw [← hp1]
      exact mapGet_of_mem _ hndc p.1 p.2 hp
    have hA_of_mem : ∀ cid c, mapGet s.mem.chunks cid = some c →
        cid ∈ idsA → c.sourceId = A := by
      intro cid c hg hin
      obtain ⟨p, hp, hp1, hp2⟩ := hfwdA.2 cid hin
      have hpg : mapGet s.mem.chunks cid = some p.2 := by
        rw [← hp1]
        exact mapGet_of_mem _ hndc p.1 p.2 hp
      rw [hg] at hpg
      injection hpg with hh
      rw [hh]
      exact hp2
    have hmem_of_A : ∀ cid c, mapGet s.mem.chunks cid = some c →
        c.sourceId = A → cid ∈ idsA := by
      intro cid c hg hEq
      obtain ⟨qq, hq, hq1, hqin⟩ := hbwd (cid, c) (mapGet_mem _ _ _ hg)
      have hqget : mapGet s.mem.sourceChunks qq.1 = some qq.2 :=
        mapGet_of_mem _ hnds qq.1 qq.2 hq
      rw [hq1, hEq, hA] at hqget
      injection hqget with hh
      rw [hh]
      exact hqin
    refine ⟨?_, ?_, ?_, ?_, ?_, ?_, ?_⟩
    · intro cid c hg hEq
      rw [hrem] at hg
      dsimp only at hg
      rw [delFold_get idsA s.mem.chunks hndc cid] at hg
      by_cases hin : cid ∈ idsA
      · rw [if_pos hin] at hg
        cases hg
      · rw [if_neg hin] at hg
        exact hin (hmem_of_A cid c hg hEq)
    · rw [hrem]
      dsimp only
      rw [mapGet_mapDelete _ _ _ hnds, if_pos rfl]
    · intro B hBA
      rw [hrem]
      dsimp only
      rw [mapGet_mapDelete _ _ _ hnds, if_neg (fun hh => hBA hh.symm)]
    · intro cid c hg hne
      rw [hrem]
      dsimp only
      have hnin : cid ∉ idsA := fun hin => hne (hA_of_mem cid c hg hin)
      rw [delFold_get idsA s.mem.chunks hndc cid, if_neg hnin]
      exact hg
    · intro q opts ids hids hne hnotin
      have hlen : 0 < ids.length := by
        cases ids with
        | nil => exact absurd rfl hne
        | cons a t => simp
      have hinit2 : (removeChunksBySourceId s A).mem.initialized = true := by
        rw [hrem]
        exact hinit
      have hs1r : initStore (removeChunksBySourceId s A) =
          removeChunksBySourceId s A := initStore_of_initialized _ hinit2
      have hcand : candidateChunks (removeChunksBySourceId s A).mem
          opts.sourceIds = candidateChunks s.mem opts.sourceIds := by
        rw [hids]
        simp only [candidateChunks, if_pos hlen]
        rw [hrem]
        dsimp only
        rw [delFold_eq_filter idsA s.mem.chunks hndc]
        show ((s.mem.chunks.filter _).map (·.2)).filter _ = _
        apply filter_map_snd
        intro p hp hQ
        simp only [decide_eq_true_eq] at hQ ⊢
        intro hin
        have h1 : mapGet s.mem.chunks p.1 = some p.2 :=
          mapGet_of_mem _ hndc p.1 p.2 hp
        rw [hA_of_mem p.1 p.2 h1 hin] at hQ
        exact hnotin hQ
      simp only [search, hs1r, hs1, hcand]
      cases scoreCandidates q (opts.minScore.getD (3 / 10))
          (candidateChunks s.mem opts.sourceIds) <;> rfl
    · simp only [hrem, hA, getStats]
      exact delFold_length idsA s.mem.chunks hndc hfwdA.1 hpres
    · intro h0
      exact Option.noConfusion h0

/-- A two-source store used to instantiate C6. -/
def removeDemoSys : Sys :=
  ⟨⟨[("a0", ⟨"a0", "A", "nA", "x", some [1], none⟩),
     ("b0", ⟨"b0", "B", "nB", "y", some [1], none⟩)],
    [("A", ["a0"]), ("B", ["b0"])], true⟩,
   ⟨true, false, []⟩⟩

/-- C6 at a concrete two-source store: removing source `A` erases its
id-set. -/
theorem claim_C6_witness :
    mapGet (removeChunksBySourceId removeDemoSys "A").mem.sourceChunks "A"
      = none :=
  (claim_C6_removeChunks removeDemoSys "A" (by decide) (by decide)).2.1

/-! ## `generateChatResponse` (`src/unnamed/part_000`, openRouterService)

The OpenRouter HTTP call and the embedding pipeline are oracles; the
trace component records every external call (`generateEmbedding`,
`vectorStore.search`, `callOpenRouter`) in invocation order. -/

/-- `SourceStatus` (types.ts). -/
inductive SourceStatus where
  | INDEXING
  | INDEXED
  | FAILED
deriving DecidableEq, Repr

/-- The fields of `Source` used by the chat service. -/
structure Source where
  id : String
  name : String
  status : SourceStatus
  checked : Bool
deriving DecidableEq, Repr

/-- `Message.sender` is `'user' | 'bot'`. -/
inductive MsgSender where
  | user
  | bot
deriving DecidableEq, Repr

/-- The fields of `Message` used by the chat service. -/
structure Message where
  sender : MsgSender
  text : String
deriving DecidableEq, Repr

/-- `OpenRouterMessage`. -/
structure OpenRouterMessage where
  role : String
  content : String
deriving DecidableEq, Repr

/-- Result of `generateChatResponse`: `retrievedChunks` is absent (not
even an empty array) on the no-source paths. -/
structure ChatResult where
  text : String
  retrievedChunks : Option (List SearchResult)

/-- One external call of the chat pipeline. -/
inductive CallEvent where
  | embed (text : String)
  | searchCall (queryEmbedding : List ℚ) (opts : SearchOptions)
  | llm (messages : List OpenRouterMessage) (temperature : ℚ)

/-- `Number.prototype.toFixed(1)` (round to one decimal), as used for the
relevance percentage. -/
noncomputable def toFixed1 (x : ℝ) : String :=
  let n : ℤ := ⌊x * 10 + 1 / 2⌋
  Int.repr (n / 10) ++ "." ++ Int.repr (n % 10)

/-- `formatRetrievedContext`. -/
noncomputable def formatRetrievedContext (results : List SearchResult) :
    String :=
  String.intercalate "\n\n" (results.mapIdx fun index result =>
    "[Source " ++ Nat.repr (index + 1) ++ "] (Relevance: " ++
    toFixed1 (result.score * 100) ++ "%)\nDocument: " ++
    result.chunk.sourceName ++ "\nContent: " ++ result.chunk.content ++
    "\n---")

/-- The system prompt of the no-source branch. -/
def genericSystemPrompt : String :=
  "You are a helpful AI assistant. Format your responses using Markdown for readability."

/-- The system prompt of the no-relevant-content branch. -/
def noContentPrompt (n : Nat) : String :=
  "You are an AI assistant. The user has uploaded " ++ Nat.repr n ++
  " source(s), but no relevant content was found for their query. Politely inform them that their sources don\x27t contain information about this topic."

/-- The `**Previous Conversation:**` block (last 4 messages), empty when
there is no history. -/
def conversationContext (history : List Message) : String :=
  if 0 < history.length then
    "\n\n**Previous Conversation:**\n" ++
    String.intercalate "\n"
      ((history.drop (history.length - 4)).map fun msg =>
        (match msg.sender with
          | .user => "User"
          | .bot => "Assistant") ++ ": " ++ msg.text)
  else ""

/-- The RAG system prompt (retrieved material plus conversation block). -/
noncomputable def ragSystemPrompt (results : List SearchResult)
    (history : List Message) : String :=
  "You are an expert AI assistant that answers questions based ONLY on the provided source material.\n\n**Your Task:**\n1. Carefully read and analyze the retrieved source material below\n2. Answer the user\x27s question using ONLY information from these sources\n3. Cite your sources using the format [Source N] where N is the source number\n4. If the sources don\x27t contain enough information to fully answer the question, state what is covered and what isn\x27t\n5. Use clear Markdown formatting (headings, lists, bold text, etc.)\n6. Be concise but thorough\n\n**CRITICAL RULES:**\n- ONLY use information from the provided sources\n- ALWAYS cite sources for factual claims using [Source N]\n- If sources contradict each other, mention both perspectives with citations\n- If the answer isn\x27t in the sources, say so clearly\n- Do NOT make up information or use external knowledge\n\n**Retrieved Source Material:**\n" ++
  formatRetrievedContext results ++ conversationContext history

/-- `generateChatResponse`: empty query → canned reply with no calls; no
INDEXED source → one ungrounded `callOpenRouter` (default temperature
`0.7`) and no `retrievedChunks` field; otherwise embed the query, search
(`topK 8`, the checked source ids, `minScore 0.3`), and answer with the
no-content prompt (`retrievedChunks = []`) or the RAG prompt at
temperature `0.3`. -/
noncomputable def generateChatResponse
    (embed : String → Except String (List ℚ)) (store : Sys)
    (llm : List OpenRouterMessage → ℚ → String) (query : String)
    (sources : List Source) (history : List Message) :
    Except String ChatResult × List CallEvent :=
  if trimChars query.data = [] then (.ok ⟨"Please enter a query.", none⟩, [])
  else
    let checkedSources :=
      sources.filter (fun s => s.status = SourceStatus.INDEXED)
    if checkedSources.length = 0 then
      let messages : List OpenRouterMessage :=
        [⟨"system", genericSystemPrompt⟩, ⟨"user", query⟩]
      (.ok ⟨llm messages (7 / 10), none⟩, [.llm messages (7 / 10)])
    else
      match embed query with
      | .error e => (.error e, [.embed query])
      | .ok queryEmbedding =>
        let opts : SearchOptions :=
          ⟨some 8, some (checkedSources.map (·.id)), some (3 / 10)⟩
        match (search store queryEmbedding opts).2 with
        | .error e =>
            (.error e, [.embed query, .searchCall queryEmbedding opts])
        | .ok retrieved =>
          if retrieved.length = 0 then
            let messages : List OpenRouterMessage :=
              [⟨"system", noContentPrompt checkedSources.length⟩,
               ⟨"user", query⟩]
            (.ok ⟨llm messages (7 / 10), some []⟩,
             [.embed query, .searchCall queryEmbedding opts,
              .llm messages (7 / 10)])
          else
            let messages : List OpenRouterMessage :=
              [⟨"system", ragSystemPrompt retrieved history⟩,
               ⟨"user", "**Question:** " ++ query⟩]
            (.ok ⟨llm messages (3 / 10), some retrieved⟩,
             [.embed query, .searchCall queryEmbedding opts,
              .llm messages (3 / 10)])

/-- **C9**: with no INDEXED source, retrieval short-circuits: the trace
contains no embedding call and no vector-store search, the result carries
no `retrievedChunks`, and (for a non-empty query) the pipeline falls back
to the single ungrounded LLM call. -/
theorem claim_C9_no_sources (embed : String → Except String (List ℚ))
    (store : Sys) (llm : List OpenRouterMessage → ℚ → String)
    (query : String) (sources : List Source) (history : List Message)
    (h : sources.filter (fun s => s.status = SourceStatus.INDEXED) = []) :
    (trimChars query.data = [] →
      generateChatResponse embed store llm query sources history =
        (.ok ⟨"Please enter a query.", none⟩, [])) ∧
    (trimChars query.data ≠ [] →
      generateChatResponse embed store llm query sources history =
        (.ok ⟨llm [⟨"system", genericSystemPrompt⟩, ⟨"user", query⟩] (7 / 10),
            none⟩,
         [.llm [⟨"system", genericSystemPrompt⟩, ⟨"user", query⟩]
            (7 / 10)])) ∧
    (∀ t, CallEvent.embed t ∉
      (generateChatResponse embed store llm query sources history).2) ∧
    (∀ qe opts, CallEvent.searchCall qe opts ∉
      (generateChatResponse embed store llm query sources history).2) ∧
    (∀ r, (generateChatResponse embed store llm query sources history).1 =
        .ok r → r.retrievedChunks = none) := by
  by_cases hq : trimChars query.data = []
  · have hres : generateChatResponse embed store llm query sources history =
        (.ok ⟨"Please enter a query.", none⟩, []) := by
      simp only [generateChatResponse, if_pos hq]
    refine ⟨fun _ => hres, fun hq2 => absurd hq hq2, ?_, ?_, ?_⟩
    · intro t
      rw [hres]
      simp
    · intro qe opts
      rw [hres]
      simp
    · intro r hr
      rw [hres] at hr
      simp only [Except.ok.injEq] at hr
      rw [← hr]
  · have hres : generateChatResponse embed store llm query sources history =
        (.ok ⟨llm [⟨"system", genericSystemPrompt⟩, ⟨"user", query⟩] (7 / 10),
            none⟩,
         [.llm [⟨"system", genericSystemPrompt⟩, ⟨"user", query⟩]
            (7 / 10)]) := by
      simp [generateChatResponse, if_neg hq, h]
    refine ⟨fun hq2 => absurd hq2 hq, fun _ => hres, ?_, ?_, ?_⟩
    · intro t
      rw [hres]
      simp
    · intro qe opts
      rw [hres]
      simp
    · intro r hr
      rw [hres] at hr
      simp only [Except.ok.injEq] at hr
      rw [← hr]

/-- C9 at a concrete input: one non-indexed source, non-empty query. -/
theorem claim_C9_witness :
    generateChatResponse (fun _ => Except.ok [])
        ⟨⟨[], [], true⟩, ⟨true, false, []⟩⟩ (fun _ _ => "ok") "hello"
        [⟨"s1", "n1", SourceStatus.INDEXING, true⟩] [] =
      (.ok ⟨"ok", none⟩,
       [.llm [⟨"system", genericSystemPrompt⟩, ⟨"user", "hello"⟩]
          (7 / 10)]) :=
  ((claim_C9_no_sources (fun _ => Except.ok [])
      ⟨⟨[], [], true⟩, ⟨true, false, []⟩⟩ (fun _ _ => "ok") "hello"
      [⟨"s1", "n1", SourceStatus.INDEXING, true⟩] [] (by decide)).2.1
    (by decide))

/-! ## C10: mutual consistency of the two maps under reachability

`owner` fixes, for each chunk id, the sole source allowed to claim it;
the precondition "no two chunks ever passed to `addChunks` share an id
with different sourceIds" is modelled as coherence of every batch with
`owner`. -/

theorem mem_mapSet {α : Type} (m : List (String × α)) (k : String) (v : α)
    (x : String × α) (hx : x ∈ mapSet m k v) : x ∈ m ∨ x = (k, v) := by
  induction m with
  | nil =>
    simp only [mapSet] at hx
    rcases List.mem_cons.1 hx with h | h
    · exact Or.inr h
    · cases h
  | cons p rest ih =>
    obtain ⟨k₀, v₀⟩ := p
    by_cases hk : k₀ = k
    · simp only [mapSet, if_pos hk] at hx
      rcases List.mem_cons.1 hx with h | h
      · exact Or.inr h
      · exact Or.inl (List.mem_cons_of_mem _ h)
    · simp only [mapSet, if_neg hk] at hx
      rcases List.mem_cons.1 hx with h | h
      · exact Or.inl (h ▸ List.mem_cons_self _ _)
      · rcases ih h with h2 | h2
        · exact Or.inl (List.mem_cons_of_mem _ h2)
        · exact Or.inr h2

theorem mapSet_self_mem {α : Type} (m : List (String × α)) (k : String)
    (v : α) : (k, v) ∈ mapSet m k v := by
  induction m with
  | nil => simp [mapSet]
  | cons p rest ih =>
    obtain ⟨k₀, v₀⟩ := p
    by_cases hk : k₀ = k
    · simp [mapSet, hk]
    · simp only [mapSet, if_neg hk]
      exact List.mem_cons_of_mem _ ih

theorem mem_mapSet_of_ne {α : Type} (m : List (String × α)) (k : String)
    (v : α) (x : String × α) (hx : x ∈ m) (hne : x.1 ≠ k) :
    x ∈ mapSet m k v := by
  induction m with
  | nil => cases hx
  | cons p rest ih =>
    obtain ⟨k₀, v₀⟩ := p
    rcases List.mem_cons.1 hx with h | h
    · by_cases hk : k₀ = k
      · exact absurd (by rw [h]; exact hk) hne
      · simp only [mapSet, if_neg hk]
        exact h ▸ List.mem_cons_self _ _
    · by_cases hk : k₀ = k
      · simp only [mapSet, if_pos hk]
        exact List.mem_cons_of_mem _ h
      · simp only [mapSet, if_neg hk]
        exact List.mem_cons_of_mem _ (ih h)

theorem mem_of_mem_mapDelete {α : Type} (m : List (String × α)) (k : String)
    (x : String × α) (hx : x ∈ mapDelete m k) : x ∈ m := by
  induction m with
  | nil => simp [mapDelete] at hx
  | cons p rest ih =>
    obtain ⟨k₀, v₀⟩ := p
    by_cases hk : k₀ = k
    · simp only [mapDelete, if_pos hk] at hx
      exact List.mem_cons_of_mem _ hx
    · simp only [mapDelete, if_neg hk] at hx
      rcases List.mem_cons.1 hx with h | h
      · exact h ▸ List.mem_cons_self _ _
      · exact List.mem_cons_of_mem _ (ih h)

/-- Each chunk id is owned by exactly one source; a store is coherent when
every stored chunk claims its owner. -/
def Coherent (owner : String → String) (m : VectorMem) : Prop :=
  ∀ p ∈ m.chunks, (p.2).sourceId = owner ((p.2).id)

/-- Stored rows claim their owner too. -/
def RowsCoherent (owner : String → String) (db : DB) : Prop :=
  ∀ p ∈ db.rows, (p.2).sourceId = owner ((p.2).id)

/-- The inductive invariant: well-formed maps, coherent memory, coherent
rows. -/
def StoreInv (owner : String → String) (s : Sys) : Prop :=
  WF s.mem ∧ Coherent owner s.mem ∧ RowsCoherent owner s.db

/-- States reachable from a fresh `VectorStore` (over a persistent table
whose rows respect `owner`) through the public mutators, where every
batch passed to `addChunks` respects `owner` — as the batches produced by
`processDocumentToChunks` do. -/
inductive Reachable (owner : String → String) : Sys → Prop where
  | init (db : DB) (hdb : ∀ p ∈ db.rows, (p.2).sourceId = owner ((p.2).id)) :
      Reachable owner ⟨⟨[], [], false⟩, db⟩
  | step_init (s : Sys) (h : Reachable owner s) :
      Reachable owner (initStore s)
  | step_add (s : Sys) (cs : List DocumentChunk) (h : Reachable owner s)
      (hcs : ∀ c ∈ cs, c.sourceId = owner c.id) :
      Reachable owner (addChunks s cs)
  | step_remove (s : Sys) (A : String) (h : Reachable owner s) :
      Reachable owner (removeChunksBySourceId s A)
  | step_clear (s : Sys) (h : Reachable owner s) :
      Reachable owner (clearStore s).1

theorem insertChunk_inv (owner : String → String) (m : VectorMem)
    (c : DocumentChunk) (hwf : WF m) (hco : Coherent owner m)
    (hc : c.sourceId = owner c.id) :
    WF (insertChunk m c) ∧ Coherent owner (insertChunk m c) := by
  obtain ⟨hndc, hnds, hid3, hfwd4, hbwd5⟩ := hwf
  have hpersist : ∀ p ∈ m.chunks, ∃ p', p' ∈ mapSet m.chunks c.id c ∧
      p'.1 = p.1 ∧ (p'.2).sourceId = (p.2).sourceId := by
    intro p hp
    by_cases hpk : p.1 = c.id
    · refine ⟨(c.id, c), mapSet_self_mem _ _ _, hpk.symm, ?_⟩
      show c.sourceId = (p.2).sourceId
      rw [hc, hco p hp, hid3 p hp, hpk]
    · exact ⟨p, mem_mapSet_of_ne _ _ _ p hp hpk, rfl, rfl⟩
  have hS0 : ∀ x ∈ (mapGet m.sourceChunks c.sourceId).getD [],
      ∃ p ∈ m.chunks, p.1 = x ∧ (p.2).sourceId = c.sourceId := by
    intro x hx
    cases hg : mapGet m.sourceChunks c.sourceId with
    | none =>
      rw [hg] at hx
      cases hx
    | some S =>
      rw [hg] at hx
      simp only [Option.getD_some] at hx
      exact (hfwd4 (c.sourceId, S) (mapGet_mem _ _ _ hg)).2 x hx
  have hS0nd : ((mapGet m.sourceChunks c.sourceId).getD []).Nodup := by
    cases hg : mapGet m.sourceChunks c.sourceId with
    | none => simp
    | some S =>
      simp only [Option.getD_some]
      exact (hfwd4 (c.sourceId, S) (mapGet_mem _ _ _ hg)).1
  refine ⟨⟨?_, ?_, ?_, ?_, ?_⟩, ?_⟩
  · exact nodupKeys_mapSet _ _ _ hndc
  · exact nodupKeys_mapSet _ _ _ hnds
  · intro p hp
    rcases mem_mapSet m.chunks c.id c p hp with h | h
    · exact hid3 p h
    · rw [h]
  · intro q hq
    rcases mem_mapSet m.sourceChunks c.sourceId
        (setAdd ((mapGet m.sourceChunks c.sourceId).getD []) c.id) q hq
      with h | h
    · obtain ⟨hqnd, hqmem⟩ := hfwd4 q h
      refine ⟨hqnd, ?_⟩
      intro cid hcid
      obtain ⟨p, hp, hp1, hp2⟩ := hqmem cid hcid
      obtain ⟨p', hp', hp'1, hp'2⟩ := hpersist p hp
      exact ⟨p', hp', by rw [hp'1, hp1], by rw [hp'2, hp2]⟩
    · subst h
      refine ⟨nodup_setAdd _ _ hS0nd, ?_⟩
      intro cid hcid
      rcases (mem_setAdd _ _ _).1 hcid with hx | hx
      · obtain ⟨p, hp, hp1, hp2⟩ := hS0 cid hx
        obtain ⟨p', hp', hp'1, hp'2⟩ := hpersist p hp
        exact ⟨p', hp', by rw [hp'1, hp1], by rw [hp'2, hp2]⟩
      · subst hx
        exact ⟨(c.id, c), mapSet_self_mem _ _ _, rfl, rfl⟩
  · intro p hp
    rcases mem_mapSet m.chunks c.id c p hp with h | h
    · obtain ⟨q, hq, hq1, hqin⟩ := hbwd5 p h
      by_cases hqs : q.1 = c.sourceId
      · have hgq : mapGet m.sourceChunks c.sourceId = some q.2 := by
          rw [← hqs]
          exact mapGet_of_mem _ hnds q.1 q.2 hq
        refine ⟨(c.sourceId,
            setAdd ((mapGet m.sourceChunks c.sourceId).getD []) c.id),
          mapSet_self_mem _ _ _, ?_, ?_⟩
        · show c.sourceId = (p.2).sourceId
          rw [← hq1, hqs]
        · show p.1 ∈ setAdd ((mapGet m.sourceChunks c.sourceId).getD []) c.id
          rw [hgq]
          simp only [Option.getD_some]
          exact (mem_setAdd _ _ _).2 (Or.inl hqin)
      · exact ⟨q, mem_mapSet_of_ne _ _ _ q hq hqs, hq1, hqin⟩
    · subst h
      refine ⟨(c.sourceId,
          setAdd ((mapGet m.sourceChunks c.sourceId).getD []) c.id),
        mapSet_self_mem _ _ _, rfl, (mem_setAdd _ _ _).2 (Or.inr rfl)⟩
  · intro p hp
    rcases mem_mapSet m.chunks c.id c p hp with h | h
    · exact hco p h
    · rw [h]
      exact hc

theorem addChunksMem_inv (owner : String → String)
    (cs : List DocumentChunk) :
    ∀ m, WF m → Coherent owner m → (∀ c ∈ cs, c.sourceId = owner c.id) →
      WF (addChunksMem m cs) ∧ Coherent owner (addChunksMem m cs) := by
  induction cs with
  | nil => intro m h1 h2 _; exact ⟨h1, h2⟩
  | cons c t ih =>
    intro m h1 h2 h3
    have hi := insertChunk_inv owner m c h1 h2 (h3 c (List.mem_cons_self c t))
    show WF (addChunksMem (insertChunk m c) t) ∧
      Coherent owner (addChunksMem (insertChunk m c) t)
    exact ih (insertChunk m c) hi.1 hi.2
      (fun c' hc' => h3 c' (List.mem_cons_of_mem c hc'))

theorem WF_empty (b : Bool) : WF ⟨[], [], b⟩ :=
  ⟨by simp [mapKeys], by simp [mapKeys],
   fun p hp => absurd hp (List.not_mem_nil p),
   fun q hq => absurd hq (List.not_mem_nil q),
   fun p hp => absurd hp (List.not_mem_nil p)⟩

theorem initStore_inv (owner : String → String) (s : Sys)
    (h : StoreInv owner s) : StoreInv owner (initStore s) := by
  obtain ⟨hwf, hco, hrows⟩ := h
  cases hi : s.mem.initialized with
  | true =>
    rw [initStore_of_initialized s hi]
    exact ⟨hwf, hco, hrows⟩
  | false =>
    have hload : WF (loadFromDB s.mem s.db) ∧
        Coherent owner (loadFromDB s.mem s.db) := by
      unfold loadFromDB
      by_cases ht : ¬s.db.tableExists = true
      · rw [if_pos ht]
        exact ⟨hwf, hco⟩
      · rw [if_neg ht]
        by_cases hf : s.db.failing = true
        · rw [if_pos hf]
          exact ⟨hwf, hco⟩
        · rw [if_neg hf]
          show WF (addChunksMem s.mem (mapValues s.db.rows)) ∧
            Coherent owner (addChunksMem s.mem (mapValues s.db.rows))
          apply addChunksMem_inv owner (mapValues s.db.rows) s.mem hwf hco
          intro c hc
          obtain ⟨p, hp, hpc⟩ := List.mem_map.1 hc
          rw [← hpc]
          exact hrows p hp
    have hform : initStore s =
        ⟨{ loadFromDB s.mem s.db with initialized := true }, s.db⟩ := by
      unfold initStore
      rw [if_neg (by rw [hi]; exact Bool.false_ne_true)]
    rw [hform]
    exact ⟨hload.1, hload.2, hrows⟩

theorem rowsFold_mem (cs : List DocumentChunk) :
    ∀ (rows : List (String × DocumentChunk)) (p : String × DocumentChunk),
      p ∈ cs.foldl (fun r c => mapSet r c.id c) rows →
      p ∈ rows ∨ ∃ c ∈ cs, p = (c.id, c) := by
  induction cs with
  | nil => intro rows p hp; exact Or.inl hp
  | cons c t ih =>
    intro rows p hp
    rcases ih (mapSet rows c.id c) p hp with h | h
    · rcases mem_mapSet rows c.id c p h with h2 | h2
      · exact Or.inl h2
      · exact Or.inr ⟨c, List.mem_cons_self c t, h2⟩
    · obtain ⟨c', hc', hp'⟩ := h
      exact Or.inr ⟨c', List.mem_cons_of_mem c hc', hp'⟩

theorem addChunks_inv (owner : String → String) (s : Sys)
    (cs : List DocumentChunk) (h : StoreInv owner s)
    (hcs : ∀ c ∈ cs, c.sourceId = owner c.id) :
    StoreInv owner (addChunks s cs) := by
  obtain ⟨hwf, hco, hrows⟩ := initStore_inv owner s h
  have hmem := addChunksMem_inv owner cs (initStore s).mem hwf hco hcs
  refine ⟨hmem.1, hmem.2, ?_⟩
  show RowsCoherent owner (saveToDB (initStore s).db cs)
  unfold saveToDB
  by_cases ht : ¬(initStore s).db.tableExists = true
  · rw [if_pos ht]
    exact hrows
  · rw [if_neg ht]
    by_cases hf : (initStore s).db.failing = true
    · rw [if_pos hf]
      exact hrows
    · rw [if_neg hf]
      intro p hp
      rcases rowsFold_mem cs (initStore s).db.rows p hp with h | h
      · exact hrows p h
      · obtain ⟨c, hc, hpc⟩ := h
        rw [hpc]
        exact hcs c hc

theorem delFoldRows_mem (ids : List String) :
    ∀ (rows : List (String × DocumentChunk)) (p : String × DocumentChunk),
      p ∈ ids.foldl (fun r i => mapDelete r i) rows → p ∈ rows := by
  induction ids with
  | nil => intro rows p hp; exact hp
  | cons i t ih =>
    intro rows p hp
    exact mem_of_mem_mapDelete rows i p (ih (mapDelete rows i) p hp)

theorem remove_inv (owner : String → String) (s : Sys) (A : String)
    (h : StoreInv owner s) : StoreInv owner (removeChunksBySourceId s A) := by
  obtain ⟨hwf, hco, hrows⟩ := initStore_inv owner s h
  obtain ⟨hndc, hnds, hid3, hfwd4, hbwd5⟩ := hwf
  cases hA : mapGet (initStore s).mem.sourceChunks A with
  | none =>
    have hrem : removeChunksBySourceId s A = initStore s := by
      simp only [removeChunksBySourceId, hA]
    rw [hrem]
    exact ⟨⟨hndc, hnds, hid3, hfwd4, hbwd5⟩, hco, hrows⟩
  | some idsA =>
    have hrem : removeChunksBySourceId s A =
        ⟨⟨idsA.foldl (fun m i => mapDelete m i) (initStore s).mem.chunks,
          mapDelete (initStore s).mem.sourceChunks A,
          (initStore s).mem.initialized⟩,
          deleteChunksFromDB (initStore s).db idsA⟩ := by
      simp only [removeChunksBySourceId, hA]
    rw [hrem]
    have hdel : idsA.foldl (fun m i => mapDelete m i)
        (initStore s).mem.chunks =
        (initStore s).mem.chunks.filter (fun p => decide (p.1 ∉ idsA)) :=
      delFold_eq_filter idsA (initStore s).mem.chunks hndc
    have hmemdel : ∀ p, p ∈ idsA.foldl (fun m i => mapDelete m i)
        (initStore s).mem.chunks →
        p ∈ (initStore s).mem.chunks ∧ p.1 ∉ idsA := by
      intro p hp
      rw [hdel] at hp
      have h2 := List.mem_filter.1 hp
      exact ⟨h2.1, by simpa using h2.2⟩
    have hmemdel2 : ∀ q, q ∈ mapDelete (initStore s).mem.sourceChunks A →
        q ∈ (initStore s).mem.sourceChunks ∧ q.1 ≠ A := by
      intro q hq
      rw [mapDelete_eq_filter _ _ hnds] at hq
      have h2 := List.mem_filter.1 hq
      exact ⟨h2.1, by simpa using h2.2⟩
    have hAfacts := hfwd4 (A, idsA) (mapGet_mem _ _ _ hA)
    refine ⟨⟨?_, ?_, ?_, ?_, ?_⟩, ?_, ?_⟩
    · exact nodupKeys_delFold idsA _ hndc
    · exact nodupKeys_mapDelete _ _ hnds
    · intro p hp
      exact hid3 p (hmemdel p hp).1
    · intro q hq
      obtain ⟨hqmem, hqA⟩ := hmemdel2 q hq
      obtain ⟨hqnd, hqids⟩ := hfwd4 q hqmem
      refine ⟨hqnd, ?_⟩
      intro cid hcid
      obtain ⟨p, hp, hp1, hp2⟩ := hqids cid hcid
      have hnin : p.1 ∉ idsA := by
        intro hin
        obtain ⟨p', hp', hp'1, hp'2⟩ := hAfacts.2 p.1 hin
        have hg1 : mapGet (initStore s).mem.chunks p.1 = some p.2 :=
          mapGet_of_mem _ hndc p.1 p.2 hp
        have hg2 : mapGet (initStore s).mem.chunks p.1 = some p'.2 := by
          rw [← hp'1]
          exact mapGet_of_mem _ hndc p'.1 p'.2 hp'
        rw [hg1] at hg2
        injection hg2 with hh
        apply hqA
        rw [← hp2, hh, hp'2]
      refine ⟨p, ?_, hp1, hp2⟩
      rw [hdel]
      exact List.mem_filter.2 ⟨hp, by simpa using hnin⟩
    · intro p hp
      obtain ⟨hpmem, hpnin⟩ := hmemdel p hp
      obtain ⟨q, hq, hq1, hqin⟩ := hbwd5 p hpmem
      have hqA : q.1 ≠ A := by
        intro hEq
        have hgq : mapGet (initStore s).mem.sourceChunks A = some q.2 := by
          rw [← hEq]
          exact mapGet_of_mem _ hnds q.1 q.2 hq
        rw [hA] at hgq
        injection hgq with hh
        apply hpnin
        rw [hh]
        exact hqin
      refine ⟨q, ?_, hq1, hqin⟩
      rw [mapDelete_eq_filter _ _ hnds]
      exact List.mem_filter.2 ⟨hq, by simpa using hqA⟩
    · intro p hp
      exact hco p (hmemdel p hp).1
    · show RowsCoherent owner (deleteChunksFromDB (initStore s).db idsA)
      unfold deleteChunksFromDB
      by_cases ht : ¬(initStore s).db.tableExists = true
      · rw [if_pos ht]
        exact hrows
      · rw [if_neg ht]
        by_cases hf : (initStore s).db.failing = true
        · rw [if_pos hf]
          exact hrows
        · rw [if_neg hf]
          intro p hp
          exact hrows p (delFoldRows_mem idsA (initStore s).db.rows p hp)

theorem clear_inv (owner : String → String) (s : Sys)
    (h : StoreInv owner s) : StoreInv owner (clearStore s).1 := by
  obtain ⟨hwf, hco, hrows⟩ := h
  unfold clearStore
  by_cases ht : ¬s.db.tableExists = true
  · rw [if_pos ht]
    exact ⟨WF_empty _, fun p hp => absurd hp (List.not_mem_nil p), hrows⟩
  · rw [if_neg ht]
    by_cases hf : s.db.failing = true
    · rw [if_pos hf]
      exact ⟨WF_empty _, fun p hp => absurd hp (List.not_mem_nil p), hrows⟩
    · rw [if_neg hf]
      exact ⟨WF_empty _, fun p hp => absurd hp (List.not_mem_nil p),
        fun p hp => absurd hp (List.not_mem_nil p)⟩

theorem Reachable_StoreInv (owner : String → String) (s : Sys)
    (h : Reachable owner s) : StoreInv owner s := by
  induction h with
  | init db hdb =>
    exact ⟨WF_empty false, fun p hp => absurd hp (List.not_mem_nil p), hdb⟩
  | step_init s h ih => exact initStore_inv owner s ih
  | step_add s cs h hcs ih => exact addChunks_inv owner s cs ih hcs
  | step_remove s A h ih => exact remove_inv owner s A ih
  | step_clear s h ih => exact clear_inv owner s ih

theorem WF_consistency (m : VectorMem) (hwf : WF m) :
    ∀ src cid,
      (∃ ids, mapGet m.sourceChunks src = some ids ∧ cid ∈ ids) ↔
      (∃ c, mapGet m.chunks cid = some c ∧ c.sourceId = src) := by
  obtain ⟨hndc, hnds, hid3, hfwd4, hbwd5⟩ := hwf
  intro src cid
  constructor
  · rintro ⟨ids, hg, hin⟩
    obtain ⟨p, hp, hp1, hp2⟩ := (hfwd4 (src, ids) (mapGet_mem _ _ _ hg)).2
      cid hin
    refine ⟨p.2, ?_, hp2⟩
    rw [← hp1]
    exact mapGet_of_mem _ hndc p.1 p.2 hp
  · rintro ⟨c, hg, hsrc⟩
    obtain ⟨q, hq, hq1, hqin⟩ := hbwd5 (cid, c) (mapGet_mem _ _ _ hg)
    refine ⟨q.2, ?_, hqin⟩
    rw [← hsrc, ← hq1]
    exact mapGet_of_mem _ hnds q.1 q.2 hq

theorem nodup_flatten_of_disjoint (L : List (String × List String))
    (hkeys : (L.map (·.1)).Nodup)
    (hnd : ∀ q ∈ L, (q.2).Nodup)
    (hdisj : ∀ q ∈ L, ∀ q' ∈ L, ∀ x, x ∈ q.2 → x ∈ q'.2 → q.1 = q'.1) :
    ((L.map (·.2)).flatten).Nodup := by
  induction L with
  | nil => simp
  | cons q t ih =>
    simp only [List.map_cons, List.flatten_cons]
    refine List.Nodup.append (hnd q (List.mem_cons_self q t)) ?_ ?_
    · refine ih ?_ ?_ ?_
      · simp only [List.map_cons, List.nodup_cons] at hkeys
        exact hkeys.2
      · exact fun q' hq' => hnd q' (List.mem_cons_of_mem q hq')
      · exact fun a ha b hb x hx hx' =>
          hdisj a (List.mem_cons_of_mem q ha) b (List.mem_cons_of_mem q hb)
            x hx hx'
    · intro x hx hxflat
      obtain ⟨l, hl, hxl⟩ := List.mem_flatten.1 hxflat
      obtain ⟨q', hq', hq'2⟩ := List.mem_map.1 hl
      have hkey := hdisj q (List.mem_cons_self q t) q'
        (List.mem_cons_of_mem q hq') x hx (by rw [hq'2]; exact hxl)
      simp only [List.map_cons, List.nodup_cons] at hkeys
      apply hkeys.1
      rw [hkey]
      exact List.mem_map_of_mem (·.1) hq'

theorem WF_count (m : VectorMem) (hwf : WF m) :
    m.chunks.length = ((mapValues m.sourceChunks).map List.length).sum := by
  obtain ⟨hndc, hnds, hid3, hfwd4, hbwd5⟩ := hwf
  have hdisj : ∀ q ∈ m.sourceChunks, ∀ q' ∈ m.sourceChunks, ∀ x,
      x ∈ q.2 → x ∈ q'.2 → q.1 = q'.1 := by
    intro q hq q' hq' x hx hx'
    obtain ⟨p, hp, hp1, hp2⟩ := (hfwd4 q hq).2 x hx
    obtain ⟨p', hp', hp'1, hp'2⟩ := (hfwd4 q' hq').2 x hx'
    have h1 : mapGet m.chunks x = some p.2 := by
      rw [← hp1]
      exact mapGet_of_mem _ hndc p.1 p.2 hp
    have h2 : mapGet m.chunks x = some p'.2 := by
      rw [← hp'1]
      exact mapGet_of_mem _ hndc p'.1 p'.2 hp'
    rw [h1] at h2
    injection h2 with hh
    rw [← hp2, ← hp'2, ← hh]
  have hmem_iff : ∀ x, x ∈ (m.sourceChunks.map (·.2)).flatten ↔
      x ∈ mapKeys m.chunks := by
    intro x
    constructor
    · intro hx
      obtain ⟨l, hl, hxl⟩ := List.mem_flatten.1 hx
      obtain ⟨q, hq, hq2⟩ := List.mem_map.1 hl
      obtain ⟨p, hp, hp1, _⟩ := (hfwd4 q hq).2 x (by rw [hq2]; exact hxl)
      rw [← hp1]
      exact List.mem_map_of_mem (·.1) hp
    · intro hx
      obtain ⟨p, hp, hp1⟩ := List.mem_map.1 hx
      obtain ⟨q, hq, hq1, hqin⟩ := hbwd5 p hp
      refine List.mem_flatten.2 ⟨q.2, List.mem_map_of_mem (·.2) hq, ?_⟩
      rw [← hp1]
      exact hqin
  have hnodupflat := nodup_flatten_of_disjoint m.sourceChunks hnds
    (fun q hq => (hfwd4 q hq).1) hdisj
  calc m.chunks.length
      = (mapKeys m.chunks).length := by simp [mapKeys]
    _ = (mapKeys m.chunks).toFinset.card :=
        (List.toFinset_card_of_nodup hndc).symm
    _ = ((m.sourceChunks.map (·.2)).flatten).toFinset.card := by
        congr 1
        apply Finset.ext
        intro x
        simp only [List.mem_toFinset]
        exact (hmem_iff x).symm
    _ = ((m.sourceChunks.map (·.2)).flatten).length :=
        List.toFinset_card_of_nodup hnodupflat
    _ = ((m.sourceChunks.map (·.2)).map List.length).sum :=
        List.length_flatten _
    _ = ((mapValues m.sourceChunks).map List.length).sum := rfl

/-- **C10**: under the ownership precondition (no two chunks ever passed
to `addChunks` share an id with different sourceIds — true of
`processDocumentToChunks` batches), every state reachable through
`initialize` / `addChunks` / `removeChunksBySourceId` / `clear` keeps the
primary chunk map and the source-to-chunk-ids map mutually consistent: a
chunk id lies in `sourceChunks[src]` iff the chunks map holds that id
with `sourceId = src`; consequently `getStats().totalChunks` equals the
sum of the per-source id-set sizes. -/
theorem claim_C10_consistency (owner : String → String) (s : Sys)
    (hreach : Reachable owner s) :
    (∀ src cid,
      (∃ ids, mapGet s.mem.sourceChunks src = some ids ∧ cid ∈ ids) ↔
      (∃ c, mapGet s.mem.chunks cid = some c ∧ c.sourceId = src)) ∧
    (getStats s.mem).totalChunks =
      ((mapValues s.mem.sourceChunks).map List.length).sum := by
  have hinv := Reachable_StoreInv owner s hreach
  refine ⟨WF_consistency s.mem hinv.1, ?_⟩
  show s.mem.chunks.length = _
  exact WF_count s.mem hinv.1

/-- C10 at a concrete reachable state: one batch added to a fresh store. -/
theorem claim_C10_witness :
    (getStats (addChunks (⟨⟨[], [], false⟩, ⟨true, false, []⟩⟩ : Sys)
        [⟨"a0", "A", "nA", "x", some [1], none⟩]).mem).totalChunks =
      ((mapValues (addChunks (⟨⟨[], [], false⟩, ⟨true, false, []⟩⟩ : Sys)
          [⟨"a0", "A", "nA", "x", some [1], none⟩]).mem.sourceChunks).map
        List.length).sum :=
  (claim_C10_consistency (fun _ => "A") _
    (Reachable.step_add _ _
      (Reachable.init ⟨true, false, []⟩ (by simp))
      (by decide))).2
